import Mathlib

/-!
# Verification of the `yalskv` key-value store

A shallow embedding of the core of `yalskv` (src/lib.rs): the record codec, the
log-file byte layer, the in-memory index, and the `reduce` pipeline
(`split` into sorted chunks, k-way `merge` with duplicate/tombstone collapsing).

Two levels are modelled, matching the two layers of the source:

* a byte level (`FileB`, `fileInsert`, `fileRemove`, `fileRead`, `readRecordB`)
  where a log file is a list of bytes with an append/read cursor, mirroring
  `StoreFile`;
* a record level (`StoreM`, `splitModel`, `mergeLoop`, `StoreM.reduce`) where the
  active log is a list of records and the index is an association list,
  mirroring `Store`, `split` and `merge`.
-/

namespace Yalskv

/-- A record of the append-only log: `Record::Insert(key, value)` or the
`Record::Remove(key)` tombstone.  Keys and values are byte sequences. -/
inductive Record : Type
  | insert (key val : List Nat) : Record
  | remove (key : List Nat) : Record
deriving DecidableEq, Repr

/-- `Record::key`. -/
def Record.key : Record → List Nat
  | .insert k _ => k
  | .remove k => k

/-- `Record::val`: the value of an `Insert`, `none` for a `Remove`. -/
def Record.val : Record → Option (List Nat)
  | .insert _ v => some v
  | .remove _ => none

/-- `Record::len`: the encoded size, `8 + 4 + 4 + |key| + |val|` for `Insert`
and `8 + 4 + |key|` for `Remove`. -/
def Record.len : Record → Nat
  | .insert k v => 16 + k.length + v.length
  | .remove k => 12 + k.length

/-- Lexicographic comparison of byte sequences, mirroring `<[u8] as Ord>::cmp`
as used by `a.key().cmp(b.key())` in `split` and `merge`. -/
def cmpKey : List Nat → List Nat → Ordering
  | [], [] => .eq
  | [], _ :: _ => .lt
  | _ :: _, [] => .gt
  | a :: as, b :: bs => if a < b then .lt else if b < a then .gt else cmpKey as bs

theorem cmpKey_self (a : List Nat) : cmpKey a a = .eq := by
  induction a with
  | nil => rfl
  | cons x xs ih => simp [cmpKey, ih]

theorem cmpKey_eq_iff {a b : List Nat} : cmpKey a b = .eq ↔ a = b := by
  induction a generalizing b with
  | nil => cases b <;> simp [cmpKey]
  | cons x xs ih =>
    cases b with
    | nil => simp [cmpKey]
    | cons y ys =>
      by_cases hxy : x < y
      · simp [cmpKey, hxy]
        intro h; omega
      · by_cases hyx : y < x
        · simp [cmpKey, hxy, hyx]
          intro h; omega
        · have hxyeq : x = y := by omega
          simp [cmpKey, hxy, hyx, ih, hxyeq]

theorem cmpKey_swap (a b : List Nat) : (cmpKey a b).swap = cmpKey b a := by
  induction a generalizing b with
  | nil => cases b <;> simp [cmpKey, Ordering.swap]
  | cons x xs ih =>
    cases b with
    | nil => simp [cmpKey, Ordering.swap]
    | cons y ys =>
      by_cases hxy : x < y
      · have : ¬ y < x := by omega
        simp [cmpKey, hxy, this, Ordering.swap]
      · by_cases hyx : y < x
        · simp [cmpKey, hxy, hyx, Ordering.swap]
        · simp [cmpKey, hxy, hyx, ih]

theorem cmpKey_gt_iff_lt {a b : List Nat} : cmpKey a b = .gt ↔ cmpKey b a = .lt := by
  rw [← cmpKey_swap b a]
  cases cmpKey b a <;> simp [Ordering.swap]

theorem cmpKey_lt_trans {a b c : List Nat} (h₁ : cmpKey a b = .lt) (h₂ : cmpKey b c = .lt) :
    cmpKey a c = .lt := by
  induction a generalizing b c with
  | nil =>
    cases b with
    | nil => simp [cmpKey] at h₁
    | cons y ys => cases c with
      | nil => simp [cmpKey] at h₂
      | cons z zs => simp [cmpKey]
  | cons x xs ih =>
    cases b with
    | nil => simp [cmpKey] at h₁
    | cons y ys =>
      cases c with
      | nil => simp [cmpKey] at h₂
      | cons z zs =>
        simp only [cmpKey] at h₁ h₂ ⊢
        by_cases hxy : x < y
        · by_cases hyz : y < z
          · have : x < z := by omega
            simp [this]
          · by_cases hzy : z < y
            · simp [hyz, hzy] at h₂
            · have : y = z := by omega
              subst this
              simp [hxy]
        · by_cases hyx : y < x
          · simp [hxy, hyx] at h₁
          · have hxyeq : x = y := by omega
            subst hxyeq
            by_cases hxz : x < z
            · simp [hxz]
            · by_cases hzx : z < x
              · simp [hxz, hzx] at h₂
              · have : x = z := by omega
                subst this
                simp [hxz, hzx] at h₁ h₂ ⊢
                exact ih (by simpa [cmpKey, hxy, hyx] using h₁) h₂

/-- `a ≤ b` on keys: the comparison is not `Greater`. -/
theorem cmpKey_le_trans {a b c : List Nat} (h₁ : cmpKey a b ≠ .gt) (h₂ : cmpKey b c ≠ .gt) :
    cmpKey a c ≠ .gt := by
  rcases h : cmpKey a b with _ | _ | _
  · rcases h' : cmpKey b c with _ | _ | _
    · intro hc
      rw [cmpKey_gt_iff_lt] at hc
      have := cmpKey_lt_trans (cmpKey_lt_trans hc h) h'
      rw [cmpKey_self] at *
      · simp at this
    · rw [cmpKey_eq_iff] at h'; subst h'; simp [h]
    · exact absurd h' h₂
  · rw [cmpKey_eq_iff] at h; subst h; exact h₂
  · exact absurd h h₁

theorem cmpKey_lt_of_lt_of_le {a b c : List Nat} (h₁ : cmpKey a b = .lt) (h₂ : cmpKey b c ≠ .gt) :
    cmpKey a c = .lt := by
  rcases h : cmpKey b c with _ | _ | _
  · exact cmpKey_lt_trans h₁ h
  · rw [cmpKey_eq_iff] at h; subst h; exact h₁
  · exact absurd h h₂

theorem cmpKey_lt_of_le_of_lt {a b c : List Nat} (h₁ : cmpKey a b ≠ .gt) (h₂ : cmpKey b c = .lt) :
    cmpKey a c = .lt := by
  rcases h : cmpKey a b with _ | _ | _
  · exact cmpKey_lt_trans h h₂
  · rw [cmpKey_eq_iff] at h; subst h; exact h₂
  · exact absurd h h₁

theorem cmpKey_lt_ne {a b : List Nat} (h : cmpKey a b = .lt) : a ≠ b := by
  intro hab; subst hab; rw [cmpKey_self] at h; simp at h

theorem cmpKey_le_total (a b : List Nat) : cmpKey a b ≠ .gt ∨ cmpKey b a ≠ .gt := by
  rcases h : cmpKey a b with _ | _ | _ <;> simp
  rw [cmpKey_gt_iff_lt] at h
  intro hc
  rw [cmpKey_gt_iff_lt] at hc
  have := cmpKey_lt_trans h hc
  rw [cmpKey_self] at this; simp at this

/-! ## Byte-level model of `StoreFile` -/

/-- Big-endian 8-byte encoding of a 64-bit integer (`u64::to_be_bytes`). -/
def be64 (n : Nat) : List Nat :=
  [n / 2 ^ 56 % 256, n / 2 ^ 48 % 256, n / 2 ^ 40 % 256, n / 2 ^ 32 % 256,
   n / 2 ^ 24 % 256, n / 2 ^ 16 % 256, n / 2 ^ 8 % 256, n % 256]

/-- Big-endian 4-byte encoding of a 32-bit integer (`u32::to_be_bytes`). -/
def be32 (n : Nat) : List Nat :=
  [n / 2 ^ 24 % 256, n / 2 ^ 16 % 256, n / 2 ^ 8 % 256, n % 256]

@[simp] theorem be64_length (n : Nat) : (be64 n).length = 8 := rfl

@[simp] theorem be32_length (n : Nat) : (be32 n).length = 4 := rfl

/-- The bytes written for one `Insert` record:
`op:u64=1 | key_len:u32 | val_len:u32 | key | val` (lengths as `u32`, wrapping). -/
def encodeInsert (k v : List Nat) : List Nat :=
  be64 1 ++ be32 (k.length % 2 ^ 32) ++ be32 (v.length % 2 ^ 32) ++ k ++ v

/-- The bytes written for one `Remove` record: `op:u64=2 | key_len:u32 | key`. -/
def encodeRemove (k : List Nat) : List Nat :=
  be64 2 ++ be32 (k.length % 2 ^ 32) ++ k

/-- The state of a `StoreFile`: file contents, the OS stream position (moved by
`write_all` and `seek`, not by `read_exact_at`), the `offset` field (the shared
append/sequential-read cursor), and the one-record peek cache. -/
structure FileB where
  data : List Nat
  pos : Nat
  offset : Nat
  recentPeek : Option Record
deriving DecidableEq, Repr

/-- The index entry returned by `StoreFile::insert`: byte offset and length of
the value payload (`file` id omitted at this level). -/
structure IndexEntryB where
  offset : Nat
  length : Nat
deriving DecidableEq, Repr

/-- `write_all`: writes `bs` at the current stream position, overwriting and
extending as needed (zero-filling any gap), and advances the stream position. -/
def writeAll (f : FileB) (bs : List Nat) : FileB :=
  { f with
    data := f.data.take f.pos ++ List.replicate (f.pos - f.data.length) 0 ++ bs
            ++ f.data.drop (f.pos + bs.length),
    pos := f.pos + bs.length }

/-- `StoreFile::insert`: append one `Insert` record (five `write_all` calls, one
contiguous byte run), advance `offset` by the encoded size, and return the
`IndexEntry` of the value payload, computed as `offset - val_len` after the
advance.  Lengths are truncated to `u32` as in `key.len() as u32`. -/
def fileInsert (f : FileB) (k v : List Nat) : FileB × IndexEntryB :=
  let keyLen := k.length % 2 ^ 32
  let valLen := v.length % 2 ^ 32
  let f1 := writeAll f (be64 1 ++ be32 keyLen ++ be32 valLen ++ k ++ v)
  let recLen := 8 + 4 + 4 + keyLen + valLen
  let f2 := { f1 with offset := f1.offset + recLen }
  (f2, ⟨f2.offset - valLen, valLen⟩)

/-- `StoreFile::remove`: append one `Remove` record and advance `offset` by its
encoded size. -/
def fileRemove (f : FileB) (k : List Nat) : FileB :=
  let keyLen := k.length % 2 ^ 32
  let f1 := writeAll f (be64 2 ++ be32 keyLen ++ k)
  { f1 with offset := f1.offset + (8 + 4 + keyLen) }

/-- I/O errors distinguished by the model: `eof` for a failed `read_exact_at`
and `unsupported` for an unknown opcode (the `DecodeError` of the spec). -/
inductive IOErr : Type
  | eof
  | unsupported
deriving DecidableEq, Repr

/-- `read_exact_at`: read exactly `n` bytes at absolute offset `off`; fails if
the file is shorter.  Does not move the stream position. -/
def readN (data : List Nat) (off n : Nat) : Option (List Nat) :=
  if off + n ≤ data.length then some ((data.drop off).take n) else none

/-- `StoreFile::read`: save the stream position, `read_exact_at`, and restore
the position (on a read failure the error propagates before the restoring
`seek`, but `read_exact_at` never moved the position). -/
def fileRead (f : FileB) (off n : Nat) : Except IOErr (List Nat) × FileB :=
  let pos0 := f.pos
  match readN f.data off n with
  | some bs => (.ok bs, { f with pos := pos0 })
  | none => (.error .eof, f)

/-- Big-endian value of a byte string (`u64::from_be_bytes` / `u32::from_be_bytes`). -/
def beToNat (bs : List Nat) : Nat := bs.foldl (fun a b => a * 256 + b) 0

/-- `StoreFile::read_record`: return the cached peek if present (advancing
`offset` by its length), otherwise decode one record at `offset`: read the
8-byte opcode, the 4-byte `key_len`, then branch on the opcode — `1` reads
`val_len` and `key_len + val_len` payload bytes (split with `split_off`),
`2` reads `key_len` key bytes, anything else fails with the unsupported-opcode
error.  There is no sanity cap on `key_len`/`val_len` (a `TODO` in the source). -/
def readRecordB (f : FileB) : Except IOErr (Record × FileB) :=
  match f.recentPeek with
  | some r => .ok (r, { f with recentPeek := none, offset := f.offset + r.len })
  | none =>
    match readN f.data f.offset 8 with
    | none => .error .eof
    | some opb =>
      match readN f.data (f.offset + 8) 4 with
      | none => .error .eof
      | some klb =>
        let op := beToNat opb
        let keyLen := beToNat klb
        if op = 1 then
          match readN f.data (f.offset + 12) 4 with
          | none => .error .eof
          | some vlb =>
            let valLen := beToNat vlb
            match readN f.data (f.offset + 16) (keyLen + valLen) with
            | none => .error .eof
            | some kv =>
              .ok (Record.insert (kv.take keyLen) (kv.drop keyLen),
                   { f with offset := f.offset + 16 + keyLen + valLen })
        else if op = 2 then
          match readN f.data (f.offset + 12) keyLen with
          | none => .error .eof
          | some kb => .ok (Record.remove kb, { f with offset := f.offset + 12 + keyLen })
        else .error .unsupported

/-! ## Record-level model of `Store` -/

/-- `BTreeMap::insert` on the index, as an association list: replace the value
of an existing key, or append the new binding. -/
def assocInsert (k v : List Nat) : List (List Nat × List Nat) → List (List Nat × List Nat)
  | [] => [(k, v)]
  | (k', v') :: rest => if k' = k then (k, v) :: rest else (k', v') :: assocInsert k v rest

/-- `BTreeMap::remove` on the index: the removed binding's value (if any) and
the remaining map. -/
def assocRemoveGet (k : List Nat) :
    List (List Nat × List Nat) → Option (List Nat) × List (List Nat × List Nat)
  | [] => (none, [])
  | (k', v') :: rest =>
    if k' = k then (some v', rest)
    else
      let r := assocRemoveGet k rest
      (r.1, (k', v') :: r.2)

/-- `BTreeMap::get` on the index. -/
def assocLookup (k : List Nat) : List (List Nat × List Nat) → Option (List Nat)
  | [] => none
  | (k', v') :: rest => if k' = k then some v' else assocLookup k rest

/-- The record-level state of a `Store`: the contents of the active log as the
sequence of its records, and the in-memory index.  At this level an index entry
is identified with the value bytes it points at (the byte-level theorems about
`fileInsert` justify that reading an entry returns exactly those bytes). -/
structure StoreM where
  log : List Record
  index : List (List Nat × List Nat)
deriving DecidableEq, Repr

/-- `Store::open` on a fresh directory: empty log, empty index. -/
def StoreM.empty : StoreM := ⟨[], []⟩

/-- `Store::insert`: append an `Insert` record to the active log and record the
entry in the index. -/
def StoreM.insert (st : StoreM) (k v : List Nat) : StoreM :=
  ⟨st.log ++ [Record.insert k v], assocInsert k v st.index⟩

/-- `Store::remove`: append a `Remove` tombstone unconditionally, delete the key
from the index, and return whether the key was present. -/
def StoreM.remove (st : StoreM) (k : List Nat) : StoreM × Bool :=
  let r := assocRemoveGet k st.index
  (⟨st.log ++ [Record.remove k], r.2⟩, r.1.isSome)

/-- `Store::lookup`: consult the index (a positional read then returns the value
bytes the entry points at). -/
def StoreM.lookup (st : StoreM) (k : List Nat) : Option (List Nat) :=
  assocLookup k st.index

/-- A mutation of the store: the operations `reduce` is quantified over. -/
inductive Op : Type
  | ins (k v : List Nat) : Op
  | rem (k : List Nat) : Op
deriving DecidableEq, Repr

/-- The store reached from a fresh store by a sequence of mutations. -/
def runOps (ops : List Op) : StoreM :=
  ops.foldl
    (fun st op =>
      match op with
      | .ins k v => st.insert k v
      | .rem k => (st.remove k).1)
    StoreM.empty

/-! ## Record-level model of `split` -/

/-- The comparator `|a, b| a.key().cmp(b.key())` as a `≤` test. -/
def recLe (a b : Record) : Bool := cmpKey a.key b.key != .gt

/-- `dump_file`'s `records.sort_by(|a, b| a.key().cmp(b.key()))`: Rust's
`sort_by` is stable, as is `List.mergeSort` with the same comparator, and a
stable sort's output is uniquely determined by the comparator. -/
def sortChunk (recs : List Record) : List Record := List.mergeSort recs recLe

/-- The `while let Ok(record)` loop of `split`: accumulate records into the
running chunk, and when the next record would push the running byte count over
`limit`, emit the chunk and start a new one holding that record; the final
(possibly empty) chunk is always emitted. -/
def splitLoop (limit : Nat) : List Record → List Record → Nat → List (List Record)
  | [], acc, _ => [acc]
  | r :: rest, acc, len =>
    if len + r.len > limit then
      acc :: splitLoop limit rest [r] r.len
    else
      splitLoop limit rest (acc ++ [r]) (len + r.len)

/-- `split`: chunk the log, then sort each chunk by key (chunk `i` of the
result is the contents of scratch file `i.dat`, reset for iteration). -/
def splitModel (limit : Nat) (log : List Record) : List (List Record) :=
  (splitLoop limit log [] 0).map sortChunk

/-! ## Record-level model of `merge` -/

/-- The peeked records of the chunks that are not exhausted, paired with their
chunk indices, in chunk order: the sequence produced by
`srcs.iter_mut().flat_map(|src| src.peek_record().ok() ...)`. -/
def peeksFrom (i : Nat) : List (List Record) → List (Nat × Record)
  | [] => []
  | c :: cs =>
    match c.head? with
    | some r => (i, r) :: peeksFrom (i + 1) cs
    | none => peeksFrom (i + 1) cs

/-- One step of `Iterator::min_by` (which keeps the earlier element on ties). -/
def pickStep (acc y : Nat × Record) : Nat × Record :=
  if cmpKey acc.2.key y.2.key = .gt then y else acc

/-- `pick`: the index and peeked record of the chunk whose peek has the
smallest key, the earliest such chunk on ties; `none` when all chunks are
exhausted. -/
def pick (srcs : List (List Record)) : Option (Nat × Record) :=
  match peeksFrom 0 srcs with
  | [] => none
  | x :: xs => some (xs.foldl pickStep x)

/-- Consuming the peeked record of chunk `i` (the `read_record` that follows a
successful `pick`). -/
def consume (srcs : List (List Record)) (i : Nat) : List (List Record) :=
  srcs.set i ((srcs.getD i []).tail)

theorem mem_peeksFrom {cs : List (List Record)} {i : Nat} {x : Nat × Record}
    (h : x ∈ peeksFrom i cs) :
    i ≤ x.1 ∧ ∃ c, cs[x.1 - i]? = some c ∧ c.head? = some x.2 := by
  induction cs generalizing i with
  | nil => simp [peeksFrom] at h
  | cons c cs ih =>
    rw [peeksFrom] at h
    rcases hh : c.head? with _ | r <;> rw [hh] at h
    · obtain ⟨h1, d, h2, h3⟩ := ih h
      refine ⟨by omega, d, ?_, h3⟩
      have : x.1 - i = (x.1 - (i + 1)) + 1 := by omega
      rw [this, List.getElem?_cons_succ]
      exact h2
    · rcases List.mem_cons.mp h with h | h
      · subst h
        exact ⟨le_refl _, c, by simp, hh⟩
      · obtain ⟨h1, d, h2, h3⟩ := ih h
        refine ⟨by omega, d, ?_, h3⟩
        have : x.1 - i = (x.1 - (i + 1)) + 1 := by omega
        rw [this, List.getElem?_cons_succ]
        exact h2

theorem foldl_pickStep_mem (xs : List (Nat × Record)) (acc : Nat × Record) :
    xs.foldl pickStep acc = acc ∨ xs.foldl pickStep acc ∈ xs := by
  induction xs generalizing acc with
  | nil => left; rfl
  | cons z zs ih =>
    rw [List.foldl_cons]
    rcases ih (pickStep acc z) with h | h
    · rw [h]
      unfold pickStep
      split
      · right; exact List.mem_cons_self _ _
      · left; rfl
    · right; exact List.mem_cons_of_mem _ h

theorem pick_spec_mem {srcs : List (List Record)} {i : Nat} {r : Record}
    (h : pick srcs = some (i, r)) :
    ∃ c, srcs[i]? = some c ∧ c.head? = some r := by
  rw [pick] at h
  rcases hp : peeksFrom 0 srcs with _ | ⟨x, xs⟩ <;> rw [hp] at h
  · simp at h
  · simp only [Option.some.injEq] at h
    have hm : xs.foldl pickStep x ∈ peeksFrom 0 srcs := by
      rw [hp]
      rcases foldl_pickStep_mem xs x with h' | h'
      · rw [h']; exact List.mem_cons_self _ _
      · exact List.mem_cons_of_mem _ h'
    rw [h] at hm
    obtain ⟨-, c, h2, h3⟩ := mem_peeksFrom hm
    exact ⟨c, by simpa using h2, h3⟩

theorem sum_consume_lt {srcs : List (List Record)} {i : Nat} {c : List Record}
    (h : srcs[i]? = some c) (hc : c ≠ []) :
    ((consume srcs i).map List.length).sum < ((srcs.map List.length).sum) := by
  induction srcs generalizing i with
  | nil => simp at h
  | cons d ds ih =>
    cases i with
    | zero =>
      simp only [List.getElem?_cons_zero, Option.some.injEq] at h
      rw [← h] at hc
      simp only [consume, List.getD_cons_zero, List.set_cons_zero, List.map_cons, List.sum_cons]
      have hd : d.tail.length < d.length := by
        cases d with
        | nil => exact absurd rfl hc
        | cons a as => simp
      omega
    | succ j =>
      simp only [List.getElem?_cons_succ] at h
      have := ih h
      simp only [consume, List.getD_cons_succ, List.set_cons_succ, List.map_cons,
        List.sum_cons] at *
      omega

theorem head?_ne_nil {c : List Record} {r : Record} (h : c.head? = some r) : c ≠ [] := by
  cases c with
  | nil => simp at h
  | cons a as => simp

/-- The records `if current_val.is_some() { dst.insert(current_key, current_val) }`
appends: one pending `Insert` when a value is pending, nothing otherwise (this
guard appears twice in `merge`: on key change, and after the loop). -/
def emitPending (curKey curVal : Option (List Nat)) : List Record :=
  match curKey, curVal with
  | some k, some v => [Record.insert k v]
  | _, _ => []

/-- The loop of `merge`: repeatedly `pick` the chunk with the smallest peeked
key, `read_record` from it, and feed the record through the duplicate
collapser; the result is the list of records appended to the destination log,
in order.  `curKey`/`curVal` are `current_key`/`current_val`; on key change the
pending `Insert(current_key, current_val)` is emitted if `current_val` is set,
and after the loop the pending value (if any) is emitted. -/
def mergeLoop (srcs : List (List Record)) (curKey : Option (List Nat))
    (curVal : Option (List Nat)) : List Record :=
  match hp : pick srcs with
  | none => emitPending curKey curVal
  | some (i, r) =>
    let ck := curKey.getD r.key
    if r.key = ck then
      mergeLoop (consume srcs i) (some ck) r.val
    else
      emitPending (some ck) curVal ++ mergeLoop (consume srcs i) (some r.key) r.val
termination_by ((srcs.map List.length).sum)
decreasing_by
  all_goals
    obtain ⟨c, hc, hh⟩ := pick_spec_mem hp
    exact sum_consume_lt hc (head?_ne_nil hh)

/-- The index built by `merge`: one `index.insert(key, entry)` per emitted
record (every emitted record is an `Insert`; a `Remove` is never emitted and
contributes nothing). -/
def buildIndex (out : List Record) : List (List Nat × List Nat) :=
  out.foldl
    (fun m r =>
      match r with
      | .insert k v => assocInsert k v m
      | .remove _ => m)
    []

/-- `Store::reduce`: split the active log into sorted chunks, replace the
active file with a fresh (truncated) one, merge the chunks into it, and replace
the index with the one built during the merge. -/
def StoreM.reduce (limit : Nat) (st : StoreM) : StoreM :=
  let out := mergeLoop (splitModel limit st.log) none none
  ⟨out, buildIndex out⟩

/-! ## Proof artifacts for the merge -/

/-- The sequence of records consumed by the merge loop, in consumption order
(a proof artifact: `mergeLoop` separates into this consumption sequence and the
pure collapser `collapseGo` below). -/
def mergeSeq (srcs : List (List Record)) : List Record :=
  match hp : pick srcs with
  | none => []
  | some (i, r) => r :: mergeSeq (consume srcs i)
termination_by ((srcs.map List.length).sum)
decreasing_by
  obtain ⟨c, hc, hh⟩ := pick_spec_mem hp
  exact sum_consume_lt hc (head?_ne_nil hh)

/-- The duplicate collapser of `merge` as a pure function of the consumption
sequence. -/
def collapseGo (curKey : Option (List Nat)) (curVal : Option (List Nat)) :
    List Record → List Record
  | [] => emitPending curKey curVal
  | r :: rest =>
    let ck := curKey.getD r.key
    if r.key = ck then
      collapseGo (some ck) r.val rest
    else
      emitPending (some ck) curVal ++ collapseGo (some r.key) r.val rest

/-! ## The mapping a log denotes -/

/-- The last record of the log whose key is `q`, if any: later records for a
key supersede earlier ones. -/
def lastRec (q : List Nat) : List Record → Option Record
  | [] => none
  | r :: rest =>
    match lastRec q rest with
    | some x => some x
    | none => if r.key = q then some r else none

/-- The key-to-value mapping a log denotes: the value of the last `Insert` for
`q` not followed by a `Remove` of `q`. -/
def lookMap (l : List Record) (q : List Nat) : Option (List Nat) :=
  (lastRec q l).bind Record.val

/-- Does a record carry key `q`? (the filter used in stability arguments). -/
def keyIs (q : List Nat) (r : Record) : Bool := decide (r.key = q)

theorem lastRec_append (q : List Nat) (a b : List Record) :
    lastRec q (a ++ b) =
      match lastRec q b with
      | some x => some x
      | none => lastRec q a := by
  induction a with
  | nil =>
    simp only [List.nil_append, lastRec]
    cases lastRec q b <;> rfl
  | cons r rest ih =>
    rw [List.cons_append]
    simp only [lastRec, List.append_eq]
    rw [ih]
    cases lastRec q b <;> cases lastRec q rest <;> rfl

theorem lastRec_concat (q : List Nat) (l : List Record) (r : Record) :
    lastRec q (l ++ [r]) = if r.key = q then some r else lastRec q l := by
  rw [lastRec_append]
  simp only [lastRec]
  by_cases h : r.key = q <;> simp [h]

theorem lastRec_eq_none (q : List Nat) (l : List Record) (h : ∀ x ∈ l, x.key ≠ q) :
    lastRec q l = none := by
  induction l with
  | nil => rfl
  | cons r rest ih =>
    simp only [lastRec, ih (fun x hx => h x (List.mem_cons_of_mem _ hx))]
    simp [h r (List.mem_cons_self _ _)]

theorem getLast?_cons_eq {α : Type} (a : α) (l : List α) :
    (a :: l).getLast? = some ((l.getLast?).getD a) := by
  induction l generalizing a with
  | nil => rfl
  | cons b bs ih =>
    rw [List.getLast?_cons_cons, ih b]
    simp

theorem lastRec_eq_getLast?_filter (q : List Nat) (l : List Record) :
    lastRec q l = (l.filter (keyIs q)).getLast? := by
  induction l with
  | nil => rfl
  | cons r rest ih =>
    simp only [lastRec, ih, List.filter_cons]
    by_cases h : r.key = q
    · have hk : keyIs q r = true := by simp [keyIs, h]
      rw [if_pos hk, getLast?_cons_eq]
      cases (rest.filter (keyIs q)).getLast? <;> simp [h]
    · have hk : ¬ keyIs q r = true := by simp [keyIs, h]
      rw [if_neg hk]
      cases hg : (rest.filter (keyIs q)).getLast? <;> simp [h, hg]

theorem lastRec_eq_of_filter_eq {q : List Nat} {l₁ l₂ : List Record}
    (h : l₁.filter (keyIs q) = l₂.filter (keyIs q)) : lastRec q l₁ = lastRec q l₂ := by
  rw [lastRec_eq_getLast?_filter, lastRec_eq_getLast?_filter, h]

/-! ## Index (association list) lemmas -/

theorem assocLookup_insert (q k v : List Nat) (idx : List (List Nat × List Nat)) :
    assocLookup q (assocInsert k v idx) = if k = q then some v else assocLookup q idx := by
  induction idx with
  | nil => simp [assocInsert, assocLookup]
  | cons p rest ih =>
    obtain ⟨k', v'⟩ := p
    by_cases hk : k' = k
    · subst hk
      by_cases hq : k' = q
      · subst hq; simp [assocInsert, assocLookup]
      · simp [assocInsert, assocLookup, hq]
    · by_cases hq : k' = q
      · subst hq
        have : ¬ k = k' := fun h => hk h.symm
        simp [assocInsert, assocLookup, hk, this]
      · simp [assocInsert, assocLookup, hk, hq, ih]

theorem assocRemoveGet_fst (k : List Nat) (idx : List (List Nat × List Nat)) :
    (assocRemoveGet k idx).1 = assocLookup k idx := by
  induction idx with
  | nil => rfl
  | cons p rest ih =>
    obtain ⟨k', v'⟩ := p
    by_cases hk : k' = k <;> simp [assocRemoveGet, assocLookup, hk, ih]

theorem assocLookup_removeGet_ne {q k : List Nat} (h : q ≠ k)
    (idx : List (List Nat × List Nat)) :
    assocLookup q (assocRemoveGet k idx).2 = assocLookup q idx := by
  induction idx with
  | nil => rfl
  | cons p rest ih =>
    obtain ⟨k', v'⟩ := p
    by_cases hk : k' = k
    · have hne : ¬ k' = q := fun hc => h (hk ▸ hc.symm)
      simp only [assocRemoveGet, if_pos hk, assocLookup, if_neg hne]
    · simp only [assocRemoveGet, if_neg hk, assocLookup]
      by_cases hq : k' = q
      · simp [hq]
      · simp [hq, ih]

theorem assocLookup_eq_none_of_not_mem {k : List Nat} {idx : List (List Nat × List Nat)}
    (h : k ∉ idx.map Prod.fst) : assocLookup k idx = none := by
  induction idx with
  | nil => rfl
  | cons p rest ih =>
    simp only [List.map_cons, List.mem_cons] at h
    push_neg at h
    have : ¬ p.1 = k := fun hc => h.1 hc.symm
    obtain ⟨k', v'⟩ := p
    simpa [assocLookup, this] using ih h.2

theorem assocLookup_removeGet_self {k : List Nat} {idx : List (List Nat × List Nat)}
    (h : (idx.map Prod.fst).Nodup) : assocLookup k (assocRemoveGet k idx).2 = none := by
  induction idx with
  | nil => rfl
  | cons p rest ih =>
    obtain ⟨k', v'⟩ := p
    simp only [List.map_cons, List.nodup_cons] at h
    by_cases hk : k' = k
    · simp only [assocRemoveGet, if_pos hk]
      apply assocLookup_eq_none_of_not_mem
      rw [← hk]
      exact h.1
    · simp [assocRemoveGet, assocLookup, hk, ih h.2]

theorem mem_keys_assocInsert {q k v : List Nat} {idx : List (List Nat × List Nat)} :
    q ∈ (assocInsert k v idx).map Prod.fst ↔ q = k ∨ q ∈ idx.map Prod.fst := by
  induction idx with
  | nil => simp [assocInsert]
  | cons p rest ih =>
    obtain ⟨k', v'⟩ := p
    by_cases hk : k' = k
    · simp only [assocInsert, if_pos hk, List.map_cons, List.mem_cons]
      rw [hk]
      tauto
    · simp only [assocInsert, if_neg hk, List.map_cons, List.mem_cons, ih]
      tauto

theorem nodup_keys_assocInsert {k v : List Nat} {idx : List (List Nat × List Nat)}
    (h : (idx.map Prod.fst).Nodup) : ((assocInsert k v idx).map Prod.fst).Nodup := by
  induction idx with
  | nil => simp [assocInsert]
  | cons p rest ih =>
    obtain ⟨k', v'⟩ := p
    simp only [List.map_cons, List.nodup_cons] at h
    by_cases hk : k' = k
    · simp only [assocInsert, if_pos hk, List.map_cons, List.nodup_cons]
      rw [hk] at h
      exact h
    · simp only [assocInsert, if_neg hk, List.map_cons, List.nodup_cons]
      refine ⟨?_, ih h.2⟩
      rw [mem_keys_assocInsert]
      rintro (hc | hc)
      · exact hk hc
      · exact h.1 hc

theorem mem_keys_assocRemoveGet {q k : List Nat} {idx : List (List Nat × List Nat)}
    (h : q ∈ (assocRemoveGet k idx).2.map Prod.fst) : q ∈ idx.map Prod.fst := by
  induction idx with
  | nil => simpa [assocRemoveGet] using h
  | cons p rest ih =>
    obtain ⟨k', v'⟩ := p
    by_cases hk : k' = k
    · simp only [assocRemoveGet, if_pos hk] at h
      simp only [List.map_cons, List.mem_cons]
      exact Or.inr h
    · simp only [assocRemoveGet, if_neg hk, List.map_cons, List.mem_cons] at h ⊢
      rcases h with h | h
      · exact Or.inl h
      · exact Or.inr (ih h)

theorem nodup_keys_assocRemoveGet {k : List Nat} {idx : List (List Nat × List Nat)}
    (h : (idx.map Prod.fst).Nodup) : ((assocRemoveGet k idx).2.map Prod.fst).Nodup := by
  induction idx with
  | nil => simpa [assocRemoveGet] using h
  | cons p rest ih =>
    obtain ⟨k', v'⟩ := p
    simp only [List.map_cons, List.nodup_cons] at h
    by_cases hk : k' = k
    · simp only [assocRemoveGet, if_pos hk]
      exact h.2
    · simp only [assocRemoveGet, if_neg hk, List.map_cons, List.nodup_cons]
      exact ⟨fun hc => h.1 (mem_keys_assocRemoveGet hc), ih h.2⟩

/-! ## The store invariant: the index realises the log's mapping -/

/-- Well-formedness of a reachable store: the index has no duplicate keys
(`BTreeMap` cannot) and agrees with the mapping the log denotes (invariant I2
of the spec). -/
def StoreInv (st : StoreM) : Prop :=
  (st.index.map Prod.fst).Nodup ∧ ∀ q, assocLookup q st.index = lookMap st.log q

theorem storeInv_empty : StoreInv StoreM.empty := by
  constructor
  · simp [StoreM.empty]
  · intro q; rfl

theorem storeInv_insert {st : StoreM} (h : StoreInv st) (k v : List Nat) :
    StoreInv (st.insert k v) := by
  obtain ⟨hn, hl⟩ := h
  constructor
  · exact nodup_keys_assocInsert hn
  · intro q
    simp only [StoreM.insert, lookMap, lastRec_concat, assocLookup_insert]
    by_cases hq : k = q
    · subst hq; simp [Record.key, Record.val]
    · have : ¬ (Record.insert k v).key = q := by simpa [Record.key] using hq
      simp only [this, if_neg hq, if_false]
      exact hl q

theorem storeInv_remove {st : StoreM} (h : StoreInv st) (k : List Nat) :
    StoreInv (st.remove k).1 := by
  obtain ⟨hn, hl⟩ := h
  constructor
  · exact nodup_keys_assocRemoveGet hn
  · intro q
    simp only [StoreM.remove, lookMap, lastRec_concat]
    by_cases hq : k = q
    · subst hq
      have : (Record.remove k).key = k := rfl
      simp only [this, if_pos rfl]
      simpa [Record.val] using assocLookup_removeGet_self hn
    · have h1 : ¬ (Record.remove k).key = q := by simpa [Record.key] using hq
      have h2 : q ≠ k := fun hc => hq hc.symm
      simp only [h1, if_false]
      rw [assocLookup_removeGet_ne h2]
      exact hl q

theorem runOps_inv (ops : List Op) : StoreInv (runOps ops) := by
  suffices h : ∀ (st : StoreM), StoreInv st →
      StoreInv (ops.foldl
        (fun st op =>
          match op with
          | .ins k v => st.insert k v
          | .rem k => (st.remove k).1)
        st) by
    exact h StoreM.empty storeInv_empty
  induction ops with
  | nil => intro st hst; exact hst
  | cons op rest ih =>
    intro st hst
    rw [List.foldl_cons]
    cases op with
    | ins k v => exact ih _ (storeInv_insert hst k v)
    | rem k => exact ih _ (storeInv_remove hst k)

/-! ## The index built by merge -/

theorem buildIndex_lookup (out : List Record)
    (h : ∀ r ∈ out, ∃ k v, r = Record.insert k v) (q : List Nat) :
    assocLookup q (buildIndex out) = lookMap out q := by
  induction out using List.reverseRecOn with
  | nil => rfl
  | append_singleton out r ih =>
    obtain ⟨k, v, rfl⟩ := h r (by simp)
    have hout : ∀ x ∈ out, ∃ k v, x = Record.insert k v :=
      fun x hx => h x (by simp [hx])
    have hb : buildIndex (out ++ [Record.insert k v]) = assocInsert k v (buildIndex out) := by
      simp [buildIndex, List.foldl_append]
    rw [hb, assocLookup_insert, ih hout]
    conv_rhs => rw [lookMap, lastRec_concat]
    by_cases hq : k = q
    · simp [Record.key, Record.val, hq]
    · have hne : ¬ (Record.insert k v).key = q := by simpa [Record.key] using hq
      simp [hne, hq, lookMap]

/-! ## The collapser's virtual pending record -/

/-- The pending state `(current_key, current_val)` of the collapser, seen as
the record that would produce it. -/
def virt (k : List Nat) : Option (List Nat) → Record
  | some v => Record.insert k v
  | none => Record.remove k

@[simp] theorem virt_key (k : List Nat) (cv : Option (List Nat)) : (virt k cv).key = k := by
  cases cv <;> rfl

@[simp] theorem virt_val (k : List Nat) (cv : Option (List Nat)) : (virt k cv).val = cv := by
  cases cv <;> rfl

theorem virt_key_val (r : Record) : virt r.key r.val = r := by
  cases r <;> rfl

/-! ## Split lemmas -/

/-- Nonstrict key order on records (the comparator of `split` and `merge`). -/
def rle (a b : Record) : Prop := cmpKey a.key b.key ≠ .gt

/-- Strict key order on records. -/
def rlt (a b : Record) : Prop := cmpKey a.key b.key = .lt

theorem recLe_eq_true_iff {a b : Record} : recLe a b = true ↔ rle a b := by
  unfold recLe rle
  cases cmpKey a.key b.key <;> decide

theorem recLe_trans (a b c : Record) (h₁ : recLe a b) (h₂ : recLe b c) : recLe a c := by
  rw [recLe_eq_true_iff] at *
  exact cmpKey_le_trans h₁ h₂

theorem recLe_total (a b : Record) : recLe a b || recLe b a := by
  rcases cmpKey_le_total a.key b.key with h | h
  · have : recLe a b := recLe_eq_true_iff.mpr h
    simp [this]
  · have : recLe b a := recLe_eq_true_iff.mpr h
    simp [this]

theorem sortChunk_sorted (recs : List Record) : (sortChunk recs).Pairwise rle := by
  have h : (List.mergeSort recs recLe).Pairwise (fun a b => recLe a b = true) :=
    List.sorted_mergeSort recLe_trans recLe_total recs
  exact h.imp (fun hab => recLe_eq_true_iff.mp hab)

theorem sortChunk_filter (recs : List Record) (q : List Nat) :
    (sortChunk recs).filter (keyIs q) = recs.filter (keyIs q) := by
  have hsub : List.Sublist (recs.filter (keyIs q)) recs := List.filter_sublist recs
  have hpw : (recs.filter (keyIs q)).Pairwise (fun a b => recLe a b = true) := by
    apply List.pairwise_of_forall_mem_list
    intro a ha b hb
    have ha' : a.key = q := by
      have := List.of_mem_filter ha
      simpa [keyIs] using this
    have hb' : b.key = q := by
      have := List.of_mem_filter hb
      simpa [keyIs] using this
    rw [recLe_eq_true_iff]
    unfold rle
    rw [ha', hb', cmpKey_self]
    simp
  have h2 : List.Sublist (recs.filter (keyIs q)) (List.mergeSort recs recLe) :=
    List.sublist_mergeSort recLe_trans recLe_total hpw hsub
  have h3 : List.Sublist (recs.filter (keyIs q))
      ((List.mergeSort recs recLe).filter (keyIs q)) := by
    have := h2.filter (keyIs q)
    rwa [List.filter_filter, show ((fun a => keyIs q a && keyIs q a)) = keyIs q by
      funext a; cases keyIs q a <;> rfl] at this
  have hlen : ((List.mergeSort recs recLe).filter (keyIs q)).length =
      (recs.filter (keyIs q)).length :=
    ((List.mergeSort_perm recs recLe).filter (keyIs q)).length_eq
  exact (h3.eq_of_length hlen.symm).symm

theorem splitLoop_flatten (limit : Nat) (recs : List Record) :
    ∀ (acc : List Record) (len : Nat), (splitLoop limit recs acc len).flatten = acc ++ recs := by
  induction recs with
  | nil => intro acc len; simp [splitLoop]
  | cons r rest ih =>
    intro acc len
    by_cases h : len + r.len > limit
    · rw [splitLoop, if_pos h, List.flatten_cons, ih]
      simp
    · rw [splitLoop, if_neg h, ih]
      simp

theorem flatten_map_filter (cs : List (List Record)) (p : Record → Bool) :
    (cs.map (List.filter p)).flatten = cs.flatten.filter p := by
  induction cs with
  | nil => rfl
  | cons c cs ih =>
    rw [List.map_cons, List.flatten_cons, List.flatten_cons, List.filter_append, ih]

theorem splitModel_sorted (limit : Nat) (log : List Record) :
    ∀ c ∈ splitModel limit log, c.Pairwise rle := by
  intro c hc
  simp only [splitModel, List.mem_map] at hc
  obtain ⟨d, -, rfl⟩ := hc
  exact sortChunk_sorted d

theorem splitModel_filter (limit : Nat) (log : List Record) (q : List Nat) :
    ((splitModel limit log).map (List.filter (keyIs q))).flatten = log.filter (keyIs q) := by
  have h1 : (splitModel limit log).map (List.filter (keyIs q)) =
      (splitLoop limit log [] 0).map (List.filter (keyIs q)) := by
    simp only [splitModel, List.map_map]
    apply List.map_congr_left
    intro c _
    exact sortChunk_filter c q
  rw [h1, flatten_map_filter, splitLoop_flatten]
  rfl

/-! ## Pick lemmas -/

theorem peeksFrom_le (cs : List (List Record)) (i : Nat) :
    ∀ x ∈ peeksFrom i cs, i ≤ x.1 := by
  induction cs generalizing i with
  | nil => intro x hx; simp [peeksFrom] at hx
  | cons c cs ih =>
    intro x hx
    rw [peeksFrom] at hx
    rcases hh : c.head? with _ | r <;> rw [hh] at hx
    · have := ih (i + 1) x hx
      omega
    · rcases List.mem_cons.mp hx with h | h
      · subst h; exact le_refl _
      · have := ih (i + 1) x h
        omega

theorem peeksFrom_pairwise (cs : List (List Record)) (i : Nat) :
    (peeksFrom i cs).Pairwise (fun a b => a.1 < b.1) := by
  induction cs generalizing i with
  | nil => exact List.Pairwise.nil
  | cons c cs ih =>
    rw [peeksFrom]
    rcases hh : c.head? with _ | r
    · exact ih (i + 1)
    · refine List.pairwise_cons.mpr ⟨?_, ih (i + 1)⟩
      intro b hb
      have := peeksFrom_le cs (i + 1) b hb
      omega

theorem peeksFrom_eq_nil_iff {cs : List (List Record)} {i : Nat} :
    peeksFrom i cs = [] ↔ ∀ c ∈ cs, c = [] := by
  induction cs generalizing i with
  | nil => simp [peeksFrom]
  | cons c cs ih =>
    rw [peeksFrom]
    rcases hh : c.head? with _ | r
    · have hce : c = [] := by
        cases c with
        | nil => rfl
        | cons a as => simp at hh
      simp [hce, ih]
    · have hcne : c ≠ [] := head?_ne_nil hh
      constructor
      · intro hc; simp at hc
      · intro hall
        exact absurd (hall c (List.mem_cons_self _ _)) hcne

theorem peeksFrom_of_getElem {cs : List (List Record)} {j : Nat} {c : List Record} {r : Record}
    (h : cs[j]? = some c) (hh : c.head? = some r) :
    ∀ i, (i + j, r) ∈ peeksFrom i cs := by
  induction cs generalizing j with
  | nil => simp at h
  | cons d ds ih =>
    intro i
    cases j with
    | zero =>
      simp only [List.getElem?_cons_zero, Option.some.injEq] at h
      subst h
      rw [peeksFrom, hh]
      simp
    | succ j' =>
      simp only [List.getElem?_cons_succ] at h
      have hmem := ih h (i + 1)
      have : i + (j' + 1) = (i + 1) + j' := by omega
      rw [this, peeksFrom]
      rcases hd : d.head? with _ | s
      · exact hmem
      · exact List.mem_cons_of_mem _ hmem

theorem foldl_pickStep_spec (xs : List (Nat × Record)) :
    ∀ (acc : Nat × Record), (acc :: xs).Pairwise (fun a b => a.1 < b.1) →
    (xs.foldl pickStep acc = acc ∨
      (xs.foldl pickStep acc ∈ xs ∧
        cmpKey (xs.foldl pickStep acc).2.key acc.2.key = .lt))
    ∧ (∀ y ∈ acc :: xs, cmpKey (xs.foldl pickStep acc).2.key y.2.key ≠ .gt)
    ∧ (∀ y ∈ acc :: xs, y.1 < (xs.foldl pickStep acc).1 →
        cmpKey y.2.key (xs.foldl pickStep acc).2.key = .gt) := by
  induction xs with
  | nil =>
    intro acc _
    refine ⟨Or.inl rfl, ?_, ?_⟩
    · intro y hy
      rcases List.mem_singleton.mp hy with rfl
      rw [List.foldl_nil, cmpKey_self]
      simp
    · intro y hy hlt
      rcases List.mem_singleton.mp hy with rfl
      rw [List.foldl_nil] at hlt
      omega
  | cons z zs ih =>
    intro acc hpw
    rw [List.pairwise_cons] at hpw
    obtain ⟨hall, hz⟩ := hpw
    have haz : acc.1 < z.1 := hall z (List.mem_cons_self _ _)
    have hazs : ∀ y ∈ zs, acc.1 < y.1 := fun y hy => hall y (List.mem_cons_of_mem _ hy)
    rw [List.foldl_cons]
    by_cases hgt : cmpKey acc.2.key z.2.key = .gt
    · have hstep : pickStep acc z = z := by rw [pickStep, if_pos hgt]
      rw [hstep]
      obtain ⟨ih1, ih2, ih3⟩ := ih z hz
      have hzlt : cmpKey z.2.key acc.2.key = .lt := cmpKey_gt_iff_lt.mp hgt
      have hmz : cmpKey (zs.foldl pickStep z).2.key z.2.key ≠ .gt :=
        ih2 z (List.mem_cons_self _ _)
      have hma : cmpKey (zs.foldl pickStep z).2.key acc.2.key = .lt :=
        cmpKey_lt_of_le_of_lt hmz hzlt
      refine ⟨?_, ?_, ?_⟩
      · rcases ih1 with h | ⟨hmem, hlt⟩
        · exact Or.inr ⟨by rw [h]; exact List.mem_cons_self _ _, by rw [h]; exact hzlt⟩
        · exact Or.inr ⟨List.mem_cons_of_mem _ hmem, cmpKey_lt_trans hlt hzlt⟩
      · intro y hy
        rcases List.mem_cons.mp hy with rfl | hy'
        · rw [hma]; simp
        · exact ih2 y hy'
      · intro y hy hlt
        rcases List.mem_cons.mp hy with rfl | hy'
        · exact cmpKey_gt_iff_lt.mpr hma
        · exact ih3 y hy' hlt
    · have hstep : pickStep acc z = acc := by rw [pickStep, if_neg hgt]
      rw [hstep]
      have hpw' : (acc :: zs).Pairwise (fun a b => a.1 < b.1) :=
        List.pairwise_cons.mpr ⟨hazs, (List.pairwise_cons.mp hz).2⟩
      obtain ⟨ih1, ih2, ih3⟩ := ih acc hpw'
      refine ⟨?_, ?_, ?_⟩
      · rcases ih1 with h | ⟨hmem, hlt⟩
        · exact Or.inl h
        · exact Or.inr ⟨List.mem_cons_of_mem _ hmem, hlt⟩
      · intro y hy
        rcases List.mem_cons.mp hy with rfl | hy'
        · exact ih2 y (List.mem_cons_self _ _)
        · rcases List.mem_cons.mp hy' with rfl | hy''
          · have hmacc : cmpKey (zs.foldl pickStep acc).2.key acc.2.key ≠ .gt :=
              ih2 acc (List.mem_cons_self _ _)
            exact cmpKey_le_trans hmacc hgt
          · exact ih2 y (List.mem_cons_of_mem _ hy'')
      · intro y hy hlt
        rcases List.mem_cons.mp hy with rfl | hy'
        · exact ih3 y (List.mem_cons_self _ _) hlt
        · rcases List.mem_cons.mp hy' with rfl | hy''
          · rcases ih1 with h | ⟨hmem, hma⟩
            · rw [h] at hlt; omega
            · have : cmpKey (zs.foldl pickStep acc).2.key y.2.key = .lt :=
                cmpKey_lt_of_lt_of_le hma hgt
              exact cmpKey_gt_iff_lt.mpr this
          · exact ih3 y (List.mem_cons_of_mem _ hy'') hlt

theorem pick_spec {srcs : List (List Record)} {i : Nat} {r : Record}
    (h : pick srcs = some (i, r)) :
    (∃ c, srcs[i]? = some c ∧ c.head? = some r)
    ∧ (∀ (j : Nat) (c : List Record) (s : Record),
        srcs[j]? = some c → c.head? = some s → cmpKey r.key s.key ≠ .gt)
    ∧ (∀ (j : Nat) (c : List Record) (s : Record),
        srcs[j]? = some c → c.head? = some s → j < i →
        cmpKey s.key r.key = .gt) := by
  refine ⟨pick_spec_mem h, ?_⟩
  rw [pick] at h
  rcases hp : peeksFrom 0 srcs with _ | ⟨x, xs⟩ <;> rw [hp] at h
  · simp at h
  · simp only [Option.some.injEq] at h
    have hpw : (x :: xs).Pairwise (fun a b => a.1 < b.1) := by
      rw [← hp]; exact peeksFrom_pairwise srcs 0
    obtain ⟨-, h2, h3⟩ := foldl_pickStep_spec xs x hpw
    constructor
    · intro j c s hj hs
      have hmem : (j, s) ∈ x :: xs := by
        rw [← hp]
        simpa using peeksFrom_of_getElem hj hs 0
      have hy := h2 (j, s) hmem
      rw [h] at hy
      exact hy
    · intro j c s hj hs hji
      have hmem : (j, s) ∈ x :: xs := by
        rw [← hp]
        simpa using peeksFrom_of_getElem hj hs 0
      have hy := h3 (j, s) hmem (by rw [h]; exact hji)
      rw [h] at hy
      exact hy

theorem pick_none_all_nil {srcs : List (List Record)} (h : pick srcs = none) :
    ∀ c ∈ srcs, c = [] := by
  rw [pick] at h
  rcases hp : peeksFrom 0 srcs with _ | ⟨x, xs⟩
  · exact peeksFrom_eq_nil_iff.mp hp
  · rw [hp] at h
    simp at h

theorem pick_none_of_all_nil {srcs : List (List Record)} (h : ∀ c ∈ srcs, c = []) :
    pick srcs = none := by
  rw [pick]
  have hnil : peeksFrom 0 srcs = [] := peeksFrom_eq_nil_iff.mpr h
  rw [hnil]

/-! ## Merge-sequence lemmas -/

/-- All chunks sorted by key (what `split` guarantees about its output). -/
def SortedChunks (srcs : List (List Record)) : Prop := ∀ c ∈ srcs, c.Pairwise rle

theorem consume_eq_set {srcs : List (List Record)} {i : Nat} {c : List Record}
    (h : srcs[i]? = some c) : consume srcs i = srcs.set i c.tail := by
  rw [consume, List.getD_eq_getElem?_getD, h]
  rfl

theorem sortedChunks_consume {srcs : List (List Record)} (hs : SortedChunks srcs) (i : Nat) :
    SortedChunks (consume srcs i) := by
  intro c hc
  rcases List.mem_or_eq_of_mem_set hc with h | h
  · exact hs c h
  · subst h
    rcases hd : srcs.getD i [] with _ | ⟨a, as⟩
    · exact List.Pairwise.nil
    · have hmem : a :: as ∈ srcs := by
        by_cases hi : i < srcs.length
        · rw [List.getD_eq_getElem?_getD, List.getElem?_eq_getElem hi] at hd
          simp only [Option.getD_some] at hd
          rw [← hd]
          exact List.getElem_mem hi
        · rw [List.getD_eq_getElem?_getD, List.getElem?_eq_none (by omega)] at hd
          simp at hd
      have hpw := hs _ hmem
      simp only [List.tail_cons]
      exact (List.pairwise_cons.mp hpw).2

theorem mem_of_mem_consume {srcs : List (List Record)} {i : Nat} {x : Record}
    {c : List Record} (hc : c ∈ consume srcs i) (hx : x ∈ c) : ∃ d ∈ srcs, x ∈ d := by
  rcases List.mem_or_eq_of_mem_set hc with h | h
  · exact ⟨c, h, hx⟩
  · subst h
    rcases hd : srcs.getD i [] with _ | ⟨a, as⟩
    · rw [hd] at hx; simp at hx
    · have hmem : a :: as ∈ srcs := by
        by_cases hi : i < srcs.length
        · rw [List.getD_eq_getElem?_getD, List.getElem?_eq_getElem hi] at hd
          simp only [Option.getD_some] at hd
          rw [← hd]
          exact List.getElem_mem hi
        · rw [List.getD_eq_getElem?_getD, List.getElem?_eq_none (by omega)] at hd
          simp at hd
      rw [hd] at hx
      simp only [List.tail_cons] at hx
      exact ⟨a :: as, hmem, List.mem_cons_of_mem _ hx⟩

theorem mergeSeq_eq_nil {srcs : List (List Record)} (h : pick srcs = none) :
    mergeSeq srcs = [] := by
  rw [mergeSeq, h]

theorem mergeSeq_eq_cons {srcs : List (List Record)} {i : Nat} {r : Record}
    (h : pick srcs = some (i, r)) :
    mergeSeq srcs = r :: mergeSeq (consume srcs i) := by
  rw [mergeSeq, h]

theorem sum_consume_le {srcs : List (List Record)} {i : Nat} {c : List Record} {n : Nat}
    (h : srcs[i]? = some c) (hc : c ≠ []) (hn : (srcs.map List.length).sum ≤ n + 1) :
    ((consume srcs i).map List.length).sum ≤ n := by
  have := sum_consume_lt h hc
  omega

theorem mergeSeq_mem_bound : ∀ (n : Nat) (srcs : List (List Record)),
    (srcs.map List.length).sum ≤ n → ∀ x ∈ mergeSeq srcs, ∃ c ∈ srcs, x ∈ c := by
  intro n
  induction n with
  | zero =>
    intro srcs hb x hx
    rcases hpick : pick srcs with _ | ⟨i, r⟩
    · rw [mergeSeq_eq_nil hpick] at hx
      simp at hx
    · obtain ⟨c, hc, hh⟩ := pick_spec_mem hpick
      have := sum_consume_lt hc (head?_ne_nil hh)
      omega
  | succ n ih =>
    intro srcs hb x hx
    rcases hpick : pick srcs with _ | ⟨i, r⟩
    · rw [mergeSeq_eq_nil hpick] at hx
      simp at hx
    · obtain ⟨c, hc, hh⟩ := pick_spec_mem hpick
      rw [mergeSeq_eq_cons hpick] at hx
      rcases List.mem_cons.mp hx with rfl | hx'
      · refine ⟨c, ?_, ?_⟩
        · exact List.getElem?_mem hc
        · cases c with
          | nil => simp at hh
          | cons a as =>
            simp only [List.head?_cons, Option.some.injEq] at hh
            rw [hh]
            exact List.mem_cons_self _ _
      · obtain ⟨d, hd, hxd⟩ :=
          ih (consume srcs i) (sum_consume_le hc (head?_ne_nil hh) hb) x hx'
        exact mem_of_mem_consume hd hxd

theorem mergeSeq_mem {srcs : List (List Record)} {x : Record} (h : x ∈ mergeSeq srcs) :
    ∃ c ∈ srcs, x ∈ c :=
  mergeSeq_mem_bound ((srcs.map List.length).sum) srcs (le_refl _) x h

/-- The record picked next is `≤` (by key) every record still present in any
chunk. -/
theorem pick_le_all {srcs : List (List Record)} {i : Nat} {r : Record}
    (hpick : pick srcs = some (i, r)) (hs : SortedChunks srcs) :
    ∀ x : Record, (∃ d ∈ srcs, x ∈ d) → rle r x := by
  rintro x ⟨d, hd, hxd⟩
  obtain ⟨j, hj⟩ := List.mem_iff_getElem?.mp hd
  cases d with
  | nil => simp at hxd
  | cons a as =>
    have hle : cmpKey r.key a.key ≠ .gt :=
      (pick_spec hpick).2.1 j (a :: as) a hj (by simp)
    rcases List.mem_cons.mp hxd with rfl | hx'
    · exact hle
    · have hax : rle a x :=
        (List.pairwise_cons.mp (hs _ hd)).1 x hx'
      exact cmpKey_le_trans hle hax

theorem mergeSeq_sorted_bound : ∀ (n : Nat) (srcs : List (List Record)),
    (srcs.map List.length).sum ≤ n → SortedChunks srcs →
    (mergeSeq srcs).Pairwise rle := by
  intro n
  induction n with
  | zero =>
    intro srcs hb hs
    rcases hpick : pick srcs with _ | ⟨i, r⟩
    · rw [mergeSeq_eq_nil hpick]
      exact List.Pairwise.nil
    · obtain ⟨c, hc, hh⟩ := pick_spec_mem hpick
      have := sum_consume_lt hc (head?_ne_nil hh)
      omega
  | succ n ih =>
    intro srcs hb hs
    rcases hpick : pick srcs with _ | ⟨i, r⟩
    · rw [mergeSeq_eq_nil hpick]
      exact List.Pairwise.nil
    · obtain ⟨c, hc, hh⟩ := pick_spec_mem hpick
      rw [mergeSeq_eq_cons hpick]
      refine List.pairwise_cons.mpr ⟨?_, ?_⟩
      · intro x hx
        obtain ⟨d, hd, hxd⟩ :=
          mergeSeq_mem_bound n (consume srcs i)
            (sum_consume_le hc (head?_ne_nil hh) hb) x hx
        obtain ⟨e, he, hxe⟩ := mem_of_mem_consume hd hxd
        exact pick_le_all hpick hs x ⟨e, he, hxe⟩
      · exact ih (consume srcs i) (sum_consume_le hc (head?_ne_nil hh) hb)
          (sortedChunks_consume hs i)

theorem mergeSeq_sorted {srcs : List (List Record)} (hs : SortedChunks srcs) :
    (mergeSeq srcs).Pairwise rle :=
  mergeSeq_sorted_bound ((srcs.map List.length).sum) srcs (le_refl _) hs

theorem flatten_filter_set_tail (p : Record → Bool) :
    ∀ (srcs : List (List Record)) (i : Nat) (r : Record) (t : List Record),
    srcs[i]? = some (r :: t) → p r = false →
    (srcs.map (List.filter p)).flatten = ((srcs.set i t).map (List.filter p)).flatten := by
  intro srcs
  induction srcs with
  | nil => intro i r t hi _; simp at hi
  | cons d ds ih =>
    intro i r t hi hp
    cases i with
    | zero =>
      simp only [List.getElem?_cons_zero, Option.some.injEq] at hi
      subst hi
      simp [List.filter_cons, hp]
    | succ j =>
      simp only [List.getElem?_cons_succ] at hi
      simp only [List.set_cons_succ, List.map_cons, List.flatten_cons]
      rw [ih j r t hi hp]

theorem flatten_filter_cons_of_prefix_nil (p : Record → Bool) :
    ∀ (srcs : List (List Record)) (i : Nat) (r : Record) (t : List Record),
    srcs[i]? = some (r :: t) → p r = true →
    (∀ (j : Nat) (c : List Record), j < i → srcs[j]? = some c → c.filter p = []) →
    (srcs.map (List.filter p)).flatten = r :: ((srcs.set i t).map (List.filter p)).flatten := by
  intro srcs
  induction srcs with
  | nil => intro i r t hi _ _; simp at hi
  | cons d ds ih =>
    intro i r t hi hp hpre
    cases i with
    | zero =>
      simp only [List.getElem?_cons_zero, Option.some.injEq] at hi
      subst hi
      simp [List.filter_cons, hp]
    | succ j =>
      simp only [List.getElem?_cons_succ] at hi
      have hd : d.filter p = [] := hpre 0 d (by omega) (by simp)
      simp only [List.set_cons_succ, List.map_cons, List.flatten_cons, hd]
      rw [ih j r t hi hp (fun j' c hj' hc => hpre (j' + 1) c (by omega) (by simpa using hc))]
      simp

theorem mergeSeq_filter_bound : ∀ (n : Nat) (srcs : List (List Record)),
    (srcs.map List.length).sum ≤ n → SortedChunks srcs → ∀ (q : List Nat),
    (mergeSeq srcs).filter (keyIs q) = ((srcs.map (List.filter (keyIs q))).flatten) := by
  intro n
  induction n with
  | zero =>
    intro srcs hb hs q
    rcases hpick : pick srcs with _ | ⟨i, r⟩
    · rw [mergeSeq_eq_nil hpick, flatten_map_filter]
      have hfl : srcs.flatten = [] := List.flatten_eq_nil_iff.mpr (pick_none_all_nil hpick)
      rw [hfl]
    · obtain ⟨c, hc, hh⟩ := pick_spec_mem hpick
      have := sum_consume_lt hc (head?_ne_nil hh)
      omega
  | succ n ih =>
    intro srcs hb hs q
    rcases hpick : pick srcs with _ | ⟨i, r⟩
    · rw [mergeSeq_eq_nil hpick, flatten_map_filter]
      have hfl : srcs.flatten = [] := List.flatten_eq_nil_iff.mpr (pick_none_all_nil hpick)
      rw [hfl]
    · obtain ⟨c, hc, hh⟩ := pick_spec_mem hpick
      obtain ⟨t, rfl⟩ : ∃ t, c = r :: t := by
        cases c with
        | nil => simp at hh
        | cons a as =>
          simp only [List.head?_cons, Option.some.injEq] at hh
          exact ⟨as, by rw [hh]⟩
      have hcons : consume srcs i = srcs.set i t := by
        simpa using consume_eq_set hc
      have hb' := sum_consume_le hc (head?_ne_nil hh) hb
      have hs' := sortedChunks_consume hs i
      rw [mergeSeq_eq_cons hpick, List.filter_cons]
      by_cases hqr : r.key = q
      · have hp : keyIs q r = true := by simp [keyIs, hqr]
        have hpre : ∀ (j : Nat) (c' : List Record), j < i → srcs[j]? = some c' →
            c'.filter (keyIs q) = [] := by
          intro j c' hj hc'
          cases c' with
          | nil => rfl
          | cons a as =>
            have hgt : cmpKey a.key r.key = .gt :=
              (pick_spec hpick).2.2 j (a :: as) a hc' (by simp) hj
            rw [List.filter_eq_nil_iff]
            intro x hx
            have hax : rle a x := by
              rcases List.mem_cons.mp hx with rfl | hx'
              · unfold rle; rw [cmpKey_self]; simp
              · exact (List.pairwise_cons.mp (hs _ (List.getElem?_mem hc'))).1 x hx'
            have hqa : cmpKey q a.key = .lt := by
              rw [← hqr]; exact cmpKey_gt_iff_lt.mp hgt
            have hqx : cmpKey q x.key = .lt := cmpKey_lt_of_lt_of_le hqa hax
            have hne : q ≠ x.key := cmpKey_lt_ne hqx
            simp only [keyIs, decide_eq_true_eq]
            exact fun hcx => hne hcx.symm
        rw [if_pos hp,
          flatten_filter_cons_of_prefix_nil (keyIs q) srcs i r t hc hp hpre, ← hcons,
          ih (consume srcs i) hb' hs' q]
      · have hp : keyIs q r = false := by simp [keyIs, hqr]
        rw [if_neg (by simp [hp]),
          flatten_filter_set_tail (keyIs q) srcs i r t hc hp, ← hcons,
          ih (consume srcs i) hb' hs' q]

theorem mergeSeq_filter {srcs : List (List Record)} (hs : SortedChunks srcs) (q : List Nat) :
    (mergeSeq srcs).filter (keyIs q) = ((srcs.map (List.filter (keyIs q))).flatten) :=
  mergeSeq_filter_bound ((srcs.map List.length).sum) srcs (le_refl _) hs q

/-! ## The merge loop equals the collapser applied to the consumption sequence -/

theorem mergeLoop_eq_none {srcs : List (List Record)} (ck cv : Option (List Nat))
    (h : pick srcs = none) :
    mergeLoop srcs ck cv = emitPending ck cv := by
  rw [mergeLoop.eq_def, h]

theorem mergeLoop_eq_some {srcs : List (List Record)} {i : Nat} {r : Record}
    (ck cv : Option (List Nat)) (h : pick srcs = some (i, r)) :
    mergeLoop srcs ck cv =
      (if r.key = ck.getD r.key then
        mergeLoop (consume srcs i) (some (ck.getD r.key)) r.val
      else
        emitPending (some (ck.getD r.key)) cv ++
          mergeLoop (consume srcs i) (some r.key) r.val) := by
  rw [mergeLoop.eq_def, h]

theorem mergeLoop_eq_collapse_bound : ∀ (n : Nat) (srcs : List (List Record)),
    (srcs.map List.length).sum ≤ n → ∀ (ck cv : Option (List Nat)),
    mergeLoop srcs ck cv = collapseGo ck cv (mergeSeq srcs) := by
  intro n
  induction n with
  | zero =>
    intro srcs hb ck cv
    rcases hpick : pick srcs with _ | ⟨i, r⟩
    · rw [mergeLoop_eq_none ck cv hpick, mergeSeq_eq_nil hpick]
      rfl
    · obtain ⟨c, hc, hh⟩ := pick_spec_mem hpick
      have := sum_consume_lt hc (head?_ne_nil hh)
      omega
  | succ n ih =>
    intro srcs hb ck cv
    rcases hpick : pick srcs with _ | ⟨i, r⟩
    · rw [mergeLoop_eq_none ck cv hpick, mergeSeq_eq_nil hpick]
      rfl
    · obtain ⟨c, hc, hh⟩ := pick_spec_mem hpick
      have hb' := sum_consume_le hc (head?_ne_nil hh) hb
      rw [mergeLoop_eq_some ck cv hpick, mergeSeq_eq_cons hpick]
      simp only [collapseGo]
      simp only [ih (consume srcs i) hb']

theorem mergeLoop_eq_collapse (srcs : List (List Record)) (ck cv : Option (List Nat)) :
    mergeLoop srcs ck cv = collapseGo ck cv (mergeSeq srcs) :=
  mergeLoop_eq_collapse_bound ((srcs.map List.length).sum) srcs (le_refl _) ck cv

/-! ## Correctness of the collapser on a sorted consumption sequence -/

theorem lastRec_cons (q : List Nat) (r : Record) (l : List Record) :
    lastRec q (r :: l) =
      match lastRec q l with
      | some x => some x
      | none => if r.key = q then some r else none := rfl

theorem collapseGo_spec : ∀ (s : List Record), s.Pairwise rle →
    ∀ (k0 : List Nat) (cv : Option (List Nat)),
    (∀ r ∈ s, cmpKey k0 r.key ≠ .gt) →
    (∀ q, lookMap (collapseGo (some k0) cv s) q = lookMap (virt k0 cv :: s) q)
    ∧ (collapseGo (some k0) cv s).Pairwise rlt
    ∧ (∀ r ∈ collapseGo (some k0) cv s, ∃ kk vv, r = Record.insert kk vv)
    ∧ (∀ r ∈ collapseGo (some k0) cv s, cmpKey k0 r.key ≠ .gt) := by
  intro s
  induction s with
  | nil =>
    intro _ k0 cv _
    refine ⟨?_, ?_, ?_, ?_⟩
    · intro q
      cases cv with
      | none =>
        simp only [collapseGo, emitPending, lookMap, lastRec, lastRec_cons, virt_key]
        by_cases hq : k0 = q <;> simp [hq, virt, Record.val]
      | some v => rfl
    · cases cv <;> simp [collapseGo, emitPending]
    · intro r hr
      cases cv with
      | none => simp [collapseGo, emitPending] at hr
      | some v =>
        simp only [collapseGo, emitPending, List.mem_singleton] at hr
        exact ⟨k0, v, hr⟩
    · intro r hr
      cases cv with
      | none => simp [collapseGo, emitPending] at hr
      | some v =>
        simp only [collapseGo, emitPending, List.mem_singleton] at hr
        subst hr
        simp [Record.key, cmpKey_self]
  | cons r rest ih =>
    intro hs k0 cv hk
    obtain ⟨hrall, hrest⟩ := List.pairwise_cons.mp hs
    have hk0r : cmpKey k0 r.key ≠ .gt := hk r (List.mem_cons_self _ _)
    by_cases hkey : r.key = k0
    · have hkrest : ∀ x ∈ rest, cmpKey k0 x.key ≠ .gt := by
        intro x hx
        rw [← hkey]
        exact hrall x hx
      obtain ⟨hm, hpw, hins, hge⟩ := ih hrest k0 r.val hkrest
      have hout : collapseGo (some k0) cv (r :: rest) = collapseGo (some k0) r.val rest := by
        simp only [collapseGo, Option.getD_some]
        rw [if_pos hkey]
      refine ⟨?_, by rw [hout]; exact hpw, by rw [hout]; exact hins,
        by rw [hout]; exact hge⟩
      intro q
      rw [hout, hm q]
      simp only [lookMap, lastRec_cons, virt_key]
      rcases hlr : lastRec q rest with _ | x
      · by_cases hq : r.key = q
        · rw [← hkey]
          simp [hq, virt_val]
        · rw [← hkey]
          simp [hq, virt_val]
      · simp
    · have hlt : cmpKey k0 r.key = .lt := by
        rcases h : cmpKey k0 r.key with _ | _ | _
        · rfl
        · rw [cmpKey_eq_iff] at h
          exact absurd h.symm hkey
        · exact absurd h hk0r
      have hkrest : ∀ x ∈ rest, cmpKey r.key x.key ≠ .gt := fun x hx => hrall x hx
      obtain ⟨hm, hpw, hins, hge⟩ := ih hrest r.key r.val hkrest
      have hout : collapseGo (some k0) cv (r :: rest) =
          emitPending (some k0) cv ++ collapseGo (some r.key) r.val rest := by
        simp only [collapseGo, Option.getD_some]
        rw [if_neg hkey]
      refine ⟨?_, ?_, ?_, ?_⟩
      · intro q
        rw [hout, lookMap, lastRec_append]
        by_cases hq : k0 = q
        · have hno2 : lastRec q (collapseGo (some r.key) r.val rest) = none := by
            apply lastRec_eq_none
            intro x hx
            have hqx : cmpKey q x.key = .lt := by
              rw [← hq]
              exact cmpKey_lt_of_lt_of_le hlt (hge x hx)
            exact (cmpKey_lt_ne hqx).symm
          have hnorest : lastRec q (r :: rest) = none := by
            apply lastRec_eq_none
            intro x hx
            rcases List.mem_cons.mp hx with rfl | hx'
            · intro hc
              exact hkey (by rw [hc, ← hq])
            · have hqx : cmpKey q x.key = .lt := by
                rw [← hq]
                exact cmpKey_lt_of_lt_of_le hlt (hkrest x hx')
              exact (cmpKey_lt_ne hqx).symm
          rw [hno2]
          simp only [lookMap, lastRec_cons, hnorest, virt_key]
          rw [if_pos hq]
          cases cv with
          | none => simp [emitPending, lastRec, virt, Record.val]
          | some v =>
            simp [emitPending, lastRec, lastRec_cons, hq, virt, Record.val, Record.key]
        · have hnoemit : lastRec q (emitPending (some k0) cv) = none := by
            cases cv with
            | none => rfl
            | some v =>
              apply lastRec_eq_none
              intro x hx
              simp only [emitPending, List.mem_singleton] at hx
              subst hx
              simpa [Record.key] using fun hc => hq hc
          have hL : (match lastRec q (collapseGo (some r.key) r.val rest) with
              | some x => some x
              | none => lastRec q (emitPending (some k0) cv)) =
              lastRec q (collapseGo (some r.key) r.val rest) := by
            rw [hnoemit]
            rcases lastRec q (collapseGo (some r.key) r.val rest) <;> rfl
          rw [hL]
          have hm' : lookMap (collapseGo (some r.key) r.val rest) q =
              lookMap (r :: rest) q := by
            rw [hm q, virt_key_val]
          rw [show (lastRec q (collapseGo (some r.key) r.val rest)).bind Record.val =
            lookMap (collapseGo (some r.key) r.val rest) q from rfl, hm']
          simp only [lookMap, lastRec_cons, virt_key]
          rcases lastRec q rest with _ | x
          · by_cases hrq : r.key = q
            · simp [hrq]
            · simp [hrq, hq]
          · simp
      · rw [hout]
        cases cv with
        | none => simpa [emitPending] using hpw
        | some v =>
          simp only [emitPending, List.singleton_append]
          refine List.pairwise_cons.mpr ⟨?_, hpw⟩
          intro x hx
          show cmpKey (Record.insert k0 v).key x.key = .lt
          simp only [Record.key]
          exact cmpKey_lt_of_lt_of_le hlt (hge x hx)
      · rw [hout]
        intro x hx
        rcases List.mem_append.mp hx with hx' | hx'
        · cases cv with
          | none => simp [emitPending] at hx'
          | some v =>
            simp only [emitPending, List.mem_singleton] at hx'
            exact ⟨k0, v, hx'⟩
        · exact hins x hx'
      · rw [hout]
        intro x hx
        rcases List.mem_append.mp hx with hx' | hx'
        · cases cv with
          | none => simp [emitPending] at hx'
          | some v =>
            simp only [emitPending, List.mem_singleton] at hx'
            subst hx'
            simp [Record.key, cmpKey_self]
        · exact cmpKey_le_trans hk0r (hge x hx')

theorem collapse_top (s : List Record) (hs : s.Pairwise rle) :
    (∀ q, lookMap (collapseGo none none s) q = lookMap s q)
    ∧ (collapseGo none none s).Pairwise rlt
    ∧ (∀ r ∈ collapseGo none none s, ∃ kk vv, r = Record.insert kk vv) := by
  cases s with
  | nil =>
    refine ⟨fun q => rfl, List.Pairwise.nil, fun r hr => ?_⟩
    simp [collapseGo, emitPending] at hr
  | cons r rest =>
    have hunfold : collapseGo none none (r :: rest) = collapseGo (some r.key) r.val rest := by
      simp [collapseGo]
    obtain ⟨hrall, hrest⟩ := List.pairwise_cons.mp hs
    have hk : ∀ x ∈ rest, cmpKey r.key x.key ≠ .gt := fun x hx => hrall x hx
    obtain ⟨hm, hpw, hins, -⟩ := collapseGo_spec rest hrest r.key r.val hk
    refine ⟨?_, by rw [hunfold]; exact hpw, by rw [hunfold]; exact hins⟩
    intro q
    rw [hunfold, hm q, virt_key_val]

/-! ## Fault injection for the split phase -/

/-- The `while let Ok(record)` loop of `split` under fault injection: the
sequential reads are numbered from 0 and read number `failAt` returns an I/O
error (any `Err`, not just end-of-file).  Because the loop condition treats
every read error as end of input, the failed read merely ends the loop and the
records accumulated so far are dumped as the final chunk; no error is
returned. -/
def splitLoopFaulty (limit failAt : Nat) :
    Nat → List Record → List Record → Nat → List (List Record)
  | _, [], acc, _ => [acc]
  | n, r :: rest, acc, len =>
    if n = failAt then [acc]
    else if len + r.len > limit then
      acc :: splitLoopFaulty limit failAt (n + 1) rest [r] r.len
    else
      splitLoopFaulty limit failAt (n + 1) rest (acc ++ [r]) (len + r.len)

/-- `Store::reduce` when sequential read number `failAt` of the split phase
fails with an I/O error while every other I/O operation succeeds: the split
loop swallows the error, so `reduce` runs to completion and returns `Ok`,
rebuilding the active log and the index from only the records read before the
failure. -/
def reduceFaulty (limit failAt : Nat) (st : StoreM) : StoreM :=
  let out := mergeLoop ((splitLoopFaulty limit failAt 0 st.log [] 0).map sortChunk) none none
  ⟨out, buildIndex out⟩

/-- The sanity cap on `key_len` the spec recommends (`2^24`). -/
def CAP_KEY : Nat := 2 ^ 24

/-! ## Byte-level read helpers -/

theorem readN_zero (l : List Nat) (n : Nat) (h : n ≤ l.length) :
    readN l 0 n = some (l.take n) := by
  rw [readN, if_pos (by omega)]
  simp

theorem readN_append (a b : List Nat) (m n : Nat) (hm : a.length = m) (hn : n ≤ b.length) :
    readN (a ++ b) m n = some (b.take n) := by
  subst hm
  rw [readN, if_pos (by simp [List.length_append]; omega)]
  rw [List.drop_left]

theorem writeAll_at_end (f : FileB) (bs : List Nat) (hpos : f.pos = f.data.length) :
    (writeAll f bs).data = f.data ++ bs ∧ (writeAll f bs).pos = f.pos + bs.length ∧
    (writeAll f bs).offset = f.offset ∧ (writeAll f bs).recentPeek = f.recentPeek := by
  refine ⟨?_, rfl, rfl, rfl⟩
  rw [writeAll]
  simp only [hpos]
  rw [List.take_length, Nat.sub_self, List.replicate_zero,
    List.drop_eq_nil_of_le (by omega)]
  simp

/-! ## The claims -/

/-- C1: For every store reachable by a sequence of insert and remove operations
and for every limit > 0, the key-to-value mapping observable through lookup
(for every key) is identical before and after a successful reduce(limit),
regardless of how the limit partitions the log into chunks. -/
theorem C1_reduce_preserves_lookup (ops : List Op) (limit : Nat) (hl : 0 < limit)
    (k : List Nat) :
    ((runOps ops).reduce limit).lookup k = (runOps ops).lookup k := by
  obtain ⟨-, hidx⟩ := runOps_inv ops
  have hsc : SortedChunks (splitModel limit (runOps ops).log) :=
    splitModel_sorted limit (runOps ops).log
  obtain ⟨hm, -, hins⟩ := collapse_top _ (mergeSeq_sorted hsc)
  have hloop := mergeLoop_eq_collapse (splitModel limit (runOps ops).log) none none
  have hallins : ∀ r ∈ mergeLoop (splitModel limit (runOps ops).log) none none,
      ∃ kk vv, r = Record.insert kk vv := by
    rw [hloop]; exact hins
  show assocLookup k (buildIndex (mergeLoop (splitModel limit (runOps ops).log) none none))
      = assocLookup k (runOps ops).index
  rw [buildIndex_lookup _ hallins k, hloop, hm k]
  have hf : (mergeSeq (splitModel limit (runOps ops).log)).filter (keyIs k) =
      (runOps ops).log.filter (keyIs k) := by
    rw [mergeSeq_filter hsc k, splitModel_filter]
  have hmap : lookMap (mergeSeq (splitModel limit (runOps ops).log)) k =
      lookMap (runOps ops).log k := by
    rw [lookMap, lookMap, lastRec_eq_of_filter_eq hf]
  rw [hmap, ← hidx k]

theorem C1_witness :
    ((runOps [Op.ins [1] [2], Op.ins [3] [4], Op.rem [1]]).reduce 4).lookup [1]
      = (runOps [Op.ins [1] [2], Op.ins [3] [4], Op.rem [1]]).lookup [1] :=
  C1_reduce_preserves_lookup [Op.ins [1] [2], Op.ins [3] [4], Op.rem [1]] 4 (by decide) [1]

/-- C4: For every store and every limit > 0, after a successful reduce(limit),
the active log iterated from the start has strictly ascending keys, each key at
most once, and only Insert records (no tombstones). -/
theorem C4_reduce_sorted (st : StoreM) (limit : Nat) (hl : 0 < limit) :
    ((st.reduce limit).log.Pairwise rlt)
    ∧ (((st.reduce limit).log.map Record.key).Nodup)
    ∧ (∀ r ∈ (st.reduce limit).log, ∃ k v, r = Record.insert k v) := by
  have hsc : SortedChunks (splitModel limit st.log) := splitModel_sorted limit st.log
  obtain ⟨-, hpw, hins⟩ := collapse_top _ (mergeSeq_sorted hsc)
  have hloop := mergeLoop_eq_collapse (splitModel limit st.log) none none
  have hlog : (st.reduce limit).log = mergeLoop (splitModel limit st.log) none none := rfl
  have hpw' : (st.reduce limit).log.Pairwise rlt := by
    rw [hlog, hloop]; exact hpw
  refine ⟨hpw', ?_, ?_⟩
  · have hne : (st.reduce limit).log.Pairwise (fun a b => a.key ≠ b.key) :=
      hpw'.imp (fun hab => cmpKey_lt_ne hab)
    exact List.pairwise_map.mpr hne
  · intro r hr
    rw [hlog, hloop] at hr
    exact hins r hr

theorem C4_witness :
    ((((runOps [Op.ins [2] [3], Op.ins [1] [5]]).reduce 8).log.Pairwise rlt))
    ∧ ((((runOps [Op.ins [2] [3], Op.ins [1] [5]]).reduce 8).log.map Record.key).Nodup)
    ∧ (∀ r ∈ ((runOps [Op.ins [2] [3], Op.ins [1] [5]]).reduce 8).log,
        ∃ k v, r = Record.insert k v) :=
  C4_reduce_sorted (runOps [Op.ins [2] [3], Op.ins [1] [5]]) 8 (by decide)

/-- C2: at every step of the k-way merge, the record consumed next is the
peeked record of the chunk whose peek has the lexicographically smallest key;
when several peeks tie on the key, the chunk with the smallest chunk index
(earliest chunk file) is chosen. -/
theorem C2_pick_min (srcs : List (List Record)) (i : Nat) (r : Record)
    (h : pick srcs = some (i, r)) :
    (∃ c, srcs[i]? = some c ∧ c.head? = some r)
    ∧ mergeSeq srcs = r :: mergeSeq (consume srcs i)
    ∧ (∀ (j : Nat) (c : List Record) (s : Record),
        srcs[j]? = some c → c.head? = some s → cmpKey r.key s.key ≠ .gt)
    ∧ (∀ (j : Nat) (c : List Record) (s : Record),
        srcs[j]? = some c → c.head? = some s → cmpKey s.key r.key = .eq → i ≤ j) := by
  obtain ⟨h1, h2, h3⟩ := pick_spec h
  refine ⟨h1, mergeSeq_eq_cons h, h2, ?_⟩
  intro j c s hj hs heq
  by_contra hc
  push_neg at hc
  have hgt := h3 j c s hj hs hc
  rw [heq] at hgt
  exact absurd hgt (by decide)

theorem C2_witness :
    (∃ c, ([[Record.insert [1] []], [Record.insert [0] [9]],
        [Record.insert [0] [7]]] : List (List Record))[1]? = some c
      ∧ c.head? = some (Record.insert [0] [9]))
    ∧ mergeSeq [[Record.insert [1] []], [Record.insert [0] [9]], [Record.insert [0] [7]]]
        = Record.insert [0] [9] ::
          mergeSeq (consume [[Record.insert [1] []], [Record.insert [0] [9]],
            [Record.insert [0] [7]]] 1)
    ∧ (∀ (j : Nat) (c : List Record) (s : Record),
        ([[Record.insert [1] []], [Record.insert [0] [9]],
          [Record.insert [0] [7]]] : List (List Record))[j]? = some c →
        c.head? = some s → cmpKey (Record.insert [0] [9]).key s.key ≠ .gt)
    ∧ (∀ (j : Nat) (c : List Record) (s : Record),
        ([[Record.insert [1] []], [Record.insert [0] [9]],
          [Record.insert [0] [7]]] : List (List Record))[j]? = some c →
        c.head? = some s → cmpKey s.key (Record.insert [0] [9]).key = .eq → 1 ≤ j) :=
  C2_pick_min _ 1 (Record.insert [0] [9]) (by decide)

/-- C7: remove(key) appends a Remove tombstone to the active log even when the
key is absent, deletes the key from the in-memory index, and returns true iff
the key was present in the index immediately before the call. -/
theorem C7_remove_spec (st : StoreM) (k : List Nat)
    (h : (st.index.map Prod.fst).Nodup) :
    (st.remove k).1.log = st.log ++ [Record.remove k]
    ∧ assocLookup k (st.remove k).1.index = none
    ∧ ((st.remove k).2 = true ↔ (assocLookup k st.index).isSome = true) := by
  refine ⟨rfl, ?_, ?_⟩
  · show assocLookup k (assocRemoveGet k st.index).2 = none
    exact assocLookup_removeGet_self h
  · show (assocRemoveGet k st.index).1.isSome = true ↔ _
    rw [assocRemoveGet_fst]

theorem C7_witness :
    ((runOps [Op.ins [1] [2]]).remove [3]).1.log
        = (runOps [Op.ins [1] [2]]).log ++ [Record.remove [3]]
    ∧ assocLookup [3] ((runOps [Op.ins [1] [2]]).remove [3]).1.index = none
    ∧ (((runOps [Op.ins [1] [2]]).remove [3]).2 = true ↔
        (assocLookup [3] (runOps [Op.ins [1] [2]]).index).isSome = true) :=
  C7_remove_spec (runOps [Op.ins [1] [2]]) [3] (by decide)

/-- C10: reduce(limit) on a store with an empty active log succeeds for every
limit > 0: split produces exactly one (empty) chunk, merge emits no records
and builds an empty index, and afterwards the log is empty and every lookup
returns none. -/
theorem C10_reduce_empty (st : StoreM) (limit : Nat) (hlog : st.log = [])
    (hl : 0 < limit) :
    splitModel limit st.log = [[]]
    ∧ (st.reduce limit).log = []
    ∧ (st.reduce limit).index = []
    ∧ (∀ k, (st.reduce limit).lookup k = none) := by
  have hsplit : splitModel limit st.log = [[]] := by
    rw [hlog]
    simp [splitModel, splitLoop, sortChunk]
  have hout : mergeLoop (splitModel limit st.log) none none = [] := by
    rw [hsplit, mergeLoop_eq_none none none (by rfl)]
    rfl
  refine ⟨hsplit, ?_, ?_, ?_⟩
  · show mergeLoop (splitModel limit st.log) none none = []
    exact hout
  · show buildIndex (mergeLoop (splitModel limit st.log) none none) = []
    rw [hout]
    rfl
  · intro k
    show assocLookup k (buildIndex (mergeLoop (splitModel limit st.log) none none)) = none
    rw [hout]
    rfl

theorem C10_witness :
    splitModel 1 StoreM.empty.log = [[]]
    ∧ (StoreM.empty.reduce 1).log = []
    ∧ (StoreM.empty.reduce 1).index = []
    ∧ (∀ k, (StoreM.empty.reduce 1).lookup k = none) :=
  C10_reduce_empty StoreM.empty 1 rfl (by decide)

/-- C3 (evidence of the code's behaviour): on a store holding
Insert([0],[1]) then Insert([2],[3]), let sequential read number 1 of the
split phase (the read of the second record) fail with an I/O error while all
other I/O succeeds.  The `while let Ok(record)` loop of `split` treats the
error as end of input, so reduce completes without surfacing any error, and
the index is replaced by one rebuilt from the first record only: the mapping
for key [2] is silently lost, contradicting both parts of the claim. -/
theorem C3_read_fault_swallowed :
    (runOps [Op.ins [0] [1], Op.ins [2] [3]]).lookup [2] = some [3]
    ∧ (reduceFaulty 100 1 (runOps [Op.ins [0] [1], Op.ins [2] [3]])).lookup [2] = none
    ∧ (reduceFaulty 100 1 (runOps [Op.ins [0] [1], Op.ins [2] [3]])).index ≠
        (runOps [Op.ins [0] [1], Op.ins [2] [3]]).index := by
  have hchunks : (splitLoopFaulty 100 1 0 (runOps [Op.ins [0] [1], Op.ins [2] [3]]).log
        [] 0).map sortChunk = [[Record.insert [0] [1]]] := by
    simp [runOps, StoreM.insert, StoreM.empty, splitLoopFaulty, Record.len, sortChunk]
  have hpick1 : pick [[Record.insert [0] [1]]] = some (0, Record.insert [0] [1]) := by
    decide
  have hout : mergeLoop [[Record.insert [0] [1]]] none none = [Record.insert [0] [1]] := by
    rw [mergeLoop_eq_some none none hpick1]
    rw [if_pos (by rfl)]
    have hcons : consume [[Record.insert [0] [1]]] 0 = [([] : List Record)] := by decide
    rw [hcons, mergeLoop_eq_none _ _ (by decide)]
    rfl
  refine ⟨by decide, ?_, ?_⟩
  · show assocLookup [2] (buildIndex (mergeLoop
        ((splitLoopFaulty 100 1 0 (runOps [Op.ins [0] [1], Op.ins [2] [3]]).log [] 0).map
          sortChunk) none none)) = none
    rw [hchunks, hout]
    decide
  · show buildIndex (mergeLoop
        ((splitLoopFaulty 100 1 0 (runOps [Op.ins [0] [1], Op.ins [2] [3]]).log [] 0).map
          sortChunk) none none) ≠ (runOps [Op.ins [0] [1], Op.ins [2] [3]]).index
    rw [hchunks, hout]
    decide

theorem beToNat_be32 (n : Nat) (h : n < 2 ^ 32) : beToNat (be32 n) = n := by
  rw [be32, beToNat]
  simp only [List.foldl_cons, List.foldl_nil]
  norm_num
  omega

/-- Decoding one `Remove` record from offset 0: `read_record` succeeds for any
key length that fits a `u32` — there is no sanity cap. -/
theorem readRecordB_remove (key : List Nat) (hk : key.length < 2 ^ 32) :
    readRecordB ⟨encodeRemove key, 0, 0, none⟩
      = .ok (Record.remove key,
          ⟨encodeRemove key, 0, 0 + 12 + key.length, none⟩) := by
  have hmod : key.length % 2 ^ 32 = key.length := Nat.mod_eq_of_lt hk
  have hdata : encodeRemove key = (be64 2 ++ be32 key.length) ++ key := by
    rw [encodeRemove, hmod]
  have hlen12 : ((be64 2 ++ be32 key.length) ++ key).length = 12 + key.length := by
    rw [List.length_append, List.length_append, be64_length, be32_length]
  have h1 : readN (encodeRemove key) 0 8 = some (be64 2) := by
    rw [hdata, readN_zero _ _ (by rw [hlen12]; omega), List.append_assoc,
      List.take_left' (be64_length 2)]
  have h2 : readN (encodeRemove key) (0 + 8) 4 = some (be32 key.length) := by
    rw [hdata, List.append_assoc,
      readN_append (be64 2) _ (0 + 8) 4 (by rw [be64_length])
        (by rw [List.length_append, be32_length]; omega),
      List.take_left' (be32_length key.length)]
  have hop : beToNat (be64 2) = 2 := by decide
  have hkl : beToNat (be32 key.length) = key.length := beToNat_be32 _ hk
  have h3 : readN (encodeRemove key) (0 + 12) key.length = some key := by
    rw [hdata,
      readN_append _ _ (0 + 12) _
        (by rw [List.length_append, be64_length, be32_length]) (le_refl _),
      List.take_length]
  simp only [readRecordB, h1, h2, hop, hkl, h3]
  norm_num

/-- C5 (evidence of the code's behaviour): `read_record` enforces no sanity
cap (the cap is a `TODO` in the source): decoding a `Remove` record whose
`key_len` is 2^24 + 1 — beyond the recommended 2^24 cap — succeeds with the
record instead of failing with a `DecodeError`. -/
theorem C5_no_sanity_cap :
    CAP_KEY < (List.replicate (2 ^ 24 + 1) (0 : Nat)).length
    ∧ readRecordB ⟨encodeRemove (List.replicate (2 ^ 24 + 1) 0), 0, 0, none⟩
        = .ok (Record.remove (List.replicate (2 ^ 24 + 1) 0),
            ⟨encodeRemove (List.replicate (2 ^ 24 + 1) 0), 0,
              0 + 12 + (List.replicate (2 ^ 24 + 1) (0 : Nat)).length, none⟩) := by
  constructor
  · rw [List.length_replicate]
    norm_num [CAP_KEY]
  · exact readRecordB_remove _ (by rw [List.length_replicate]; norm_num)

theorem fileRead_state (g : FileB) (a b : Nat) : (fileRead g a b).2 = g := by
  rw [fileRead]
  rcases readN g.data a b <;> rfl

/-- C8: a positional read — as performed by lookup — returns exactly the
requested bytes and leaves the file state (contents, append cursor,
sequential read cursor, peek cache) unchanged; hence any number of such reads
interleaved between two appends leaves the file state untouched. -/
theorem C8_positional_read (f : FileB) (off n : Nat) (h : off + n ≤ f.data.length) :
    (fileRead f off n).2 = f
    ∧ (∃ bs, (fileRead f off n).1 = .ok bs ∧ bs = (f.data.drop off).take n ∧ bs.length = n)
    ∧ (∀ reads : List (Nat × Nat),
        reads.foldl (fun g p => (fileRead g p.1 p.2).2) f = f) := by
  refine ⟨fileRead_state f off n, ?_, ?_⟩
  · refine ⟨(f.data.drop off).take n, ?_, rfl, ?_⟩
    · have hr : readN f.data off n = some ((f.data.drop off).take n) := by
        rw [readN, if_pos h]
      simp only [fileRead, hr]
    · rw [List.length_take, List.length_drop]
      omega
  · intro reads
    induction reads with
    | nil => rfl
    | cons p ps ih =>
      rw [List.foldl_cons, fileRead_state]
      exact ih

theorem C8_witness :
    (fileRead ⟨[1, 2, 3], 3, 3, none⟩ 1 2).2 = ⟨[1, 2, 3], 3, 3, none⟩
    ∧ (∃ bs, (fileRead ⟨[1, 2, 3], 3, 3, none⟩ 1 2).1 = .ok bs
        ∧ bs = (([1, 2, 3] : List Nat).drop 1).take 2 ∧ bs.length = 2)
    ∧ (∀ reads : List (Nat × Nat),
        reads.foldl (fun g p => (fileRead g p.1 p.2).2) (⟨[1, 2, 3], 3, 3, none⟩ : FileB)
          = ⟨[1, 2, 3], 3, 3, none⟩) :=
  C8_positional_read ⟨[1, 2, 3], 3, 3, none⟩ 1 2 (by decide)

/-- C9: in the Appending state (stream position and `offset` both at the end
of the file), a successful append advances `offset` by exactly the record's
encoded size — 16 + |key| + |val| for Insert, 12 + |key| for Remove — and
`offset` again equals the byte length of the file. -/
theorem C9_append_offset (f : FileB) (k v : List Nat)
    (hpos : f.pos = f.data.length) (hoff : f.offset = f.data.length)
    (hk : k.length < 2 ^ 32) (hv : v.length < 2 ^ 32) :
    ((fileInsert f k v).1.offset = f.offset + (16 + k.length + v.length)
      ∧ (fileInsert f k v).1.offset = (fileInsert f k v).1.data.length)
    ∧ ((fileRemove f k).offset = f.offset + (12 + k.length)
      ∧ (fileRemove f k).offset = (fileRemove f k).data.length) := by
  have hkm : k.length % 2 ^ 32 = k.length := Nat.mod_eq_of_lt hk
  have hvm : v.length % 2 ^ 32 = v.length := Nat.mod_eq_of_lt hv
  obtain ⟨hd1, -, ho1, -⟩ := writeAll_at_end f
    (be64 1 ++ be32 (k.length % 2 ^ 32) ++ be32 (v.length % 2 ^ 32) ++ k ++ v) hpos
  obtain ⟨hd2, -, ho2, -⟩ := writeAll_at_end f
    (be64 2 ++ be32 (k.length % 2 ^ 32) ++ k) hpos
  have hoff1 : (fileInsert f k v).1.offset =
      (writeAll f (be64 1 ++ be32 (k.length % 2 ^ 32) ++ be32 (v.length % 2 ^ 32)
        ++ k ++ v)).offset + (8 + 4 + 4 + k.length % 2 ^ 32 + v.length % 2 ^ 32) := rfl
  have hdat1 : (fileInsert f k v).1.data =
      (writeAll f (be64 1 ++ be32 (k.length % 2 ^ 32) ++ be32 (v.length % 2 ^ 32)
        ++ k ++ v)).data := rfl
  have hoff2 : (fileRemove f k).offset =
      (writeAll f (be64 2 ++ be32 (k.length % 2 ^ 32) ++ k)).offset
        + (8 + 4 + k.length % 2 ^ 32) := rfl
  have hdat2 : (fileRemove f k).data =
      (writeAll f (be64 2 ++ be32 (k.length % 2 ^ 32) ++ k)).data := rfl
  refine ⟨⟨?_, ?_⟩, ⟨?_, ?_⟩⟩
  · rw [hoff1, ho1, hkm, hvm]
  · rw [hoff1, ho1, hkm, hvm, hdat1, hd1, List.length_append]
    simp [List.length_append]
    omega
  · rw [hoff2, ho2, hkm]
  · rw [hoff2, ho2, hkm, hdat2, hd2, List.length_append]
    simp [List.length_append]
    omega

theorem C9_witness :
    ((fileInsert ⟨[], 0, 0, none⟩ [5] [6, 7]).1.offset = 0 + (16 + 1 + 2)
      ∧ (fileInsert ⟨[], 0, 0, none⟩ [5] [6, 7]).1.offset
          = (fileInsert ⟨[], 0, 0, none⟩ [5] [6, 7]).1.data.length)
    ∧ ((fileRemove ⟨[], 0, 0, none⟩ [5]).offset = 0 + (12 + 1)
      ∧ (fileRemove ⟨[], 0, 0, none⟩ [5]).offset
          = (fileRemove ⟨[], 0, 0, none⟩ [5]).data.length) := by
  have h := C9_append_offset ⟨[], 0, 0, none⟩ [5] [6, 7] rfl rfl (by norm_num) (by norm_num)
  simpa using h

/-- C6: a successful append of an Insert record returns an IndexEntry whose
offset is the record's start offset + 16 + key length (the byte offset of the
first value byte — reading `length` bytes there returns exactly the value)
and whose length is the value's byte length. -/
theorem C6_insert_entry (f : FileB) (k v : List Nat)
    (hpos : f.pos = f.data.length) (hoff : f.offset = f.data.length)
    (hk : k.length < 2 ^ 32) (hv : v.length < 2 ^ 32) :
    (fileInsert f k v).2.offset = f.offset + 16 + k.length
    ∧ (fileInsert f k v).2.length = v.length
    ∧ readN (fileInsert f k v).1.data (fileInsert f k v).2.offset
        (fileInsert f k v).2.length = some v := by
  have hkm : k.length % 2 ^ 32 = k.length := Nat.mod_eq_of_lt hk
  have hvm : v.length % 2 ^ 32 = v.length := Nat.mod_eq_of_lt hv
  obtain ⟨hd1, -, ho1, -⟩ := writeAll_at_end f
    (be64 1 ++ be32 (k.length % 2 ^ 32) ++ be32 (v.length % 2 ^ 32) ++ k ++ v) hpos
  have hoffe : (fileInsert f k v).2.offset =
      (writeAll f (be64 1 ++ be32 (k.length % 2 ^ 32) ++ be32 (v.length % 2 ^ 32)
        ++ k ++ v)).offset + (8 + 4 + 4 + k.length % 2 ^ 32 + v.length % 2 ^ 32)
        - v.length % 2 ^ 32 := rfl
  have hlene : (fileInsert f k v).2.length = v.length % 2 ^ 32 := rfl
  have hdat1 : (fileInsert f k v).1.data =
      (writeAll f (be64 1 ++ be32 (k.length % 2 ^ 32) ++ be32 (v.length % 2 ^ 32)
        ++ k ++ v)).data := rfl
  have hoffs : (fileInsert f k v).2.offset = f.offset + 16 + k.length := by
    rw [hoffe, ho1, hkm, hvm]
    omega
  have hlens : (fileInsert f k v).2.length = v.length := by
    rw [hlene, hvm]
  refine ⟨hoffs, hlens, ?_⟩
  rw [hoffs, hlens, hdat1, hd1]
  have hassoc : f.data ++ (be64 1 ++ be32 (k.length % 2 ^ 32) ++ be32 (v.length % 2 ^ 32)
      ++ k ++ v)
      = (f.data ++ be64 1 ++ be32 (k.length % 2 ^ 32) ++ be32 (v.length % 2 ^ 32) ++ k)
        ++ v := by
    simp [List.append_assoc]
  rw [hassoc, readN_append _ _ _ _ ?_ (le_refl v.length), List.take_length]
  simp [List.length_append, hkm]
  omega

theorem C6_witness :
    (fileInsert ⟨[9], 1, 1, none⟩ [5] [6, 7]).2.offset = 1 + 16 + 1
    ∧ (fileInsert ⟨[9], 1, 1, none⟩ [5] [6, 7]).2.length = 2
    ∧ readN (fileInsert ⟨[9], 1, 1, none⟩ [5] [6, 7]).1.data
        (fileInsert ⟨[9], 1, 1, none⟩ [5] [6, 7]).2.offset
        (fileInsert ⟨[9], 1, 1, none⟩ [5] [6, 7]).2.length = some [6, 7] := by
  have h := C6_insert_entry ⟨[9], 1, 1, none⟩ [5] [6, 7] rfl rfl (by norm_num) (by norm_num)
  simpa using h

end Yalskv
